import Mathlib

/-!
Verification of the VSO cost-rollup program (`rollupcosts.js` plus its helper
module).  The JavaScript code is shallowly embedded: JS numbers are modelled as
exact rationals (`ℚ`), with `NaN` represented by `none` in `JsNum := Option ℚ`
(in this program `NaN` can only arise from reading an `undefined` rollup slot
and adding it to a number); JS objects used as maps are modelled as association
lists whose list order is the JS enumeration order; in-place mutation becomes
explicit state passing, and a statement that can throw (dereferencing a missing
work item) returns `Option`.  The recursion of `rollupCostsForItem` is made
total with an explicit fuel parameter; running out of fuel and a thrown error
are both `none` (an aborted run).
-/

namespace VsoRollup

/-- A JS number that may be `NaN` (`none`). -/
abbrev JsNum := Option ℚ

/-- JS `a + b` when either side may be `NaN`. -/
def jsAdd (a b : JsNum) : JsNum :=
  match a, b with
  | some x, some y => some (x + y)
  | _, _ => none

/-- JS `Math.round`: nearest integer, halves toward positive infinity. -/
def jsRound (x : ℚ) : ℤ := ⌊x + 1/2⌋

/-- `Math.round(x * 100) / 100` from `rollupCostsForItem` (line 283). -/
def round2 (x : ℚ) : ℚ := (jsRound (x * 100) : ℚ) / 100

/-- `round2` lifted over a possibly-`NaN` value (`Math.round(NaN) = NaN`). -/
def round2N (x : JsNum) : JsNum := x.map round2

/-- Property-access on a JS object modelled as an association list:
`obj[k]`, `undefined` when the key is absent. -/
def lookupKey {α β : Type} [DecidableEq α] (k : α) : List (α × β) → Option β
  | [] => none
  | (k₁, v) :: rest => if k₁ = k then some v else lookupKey k rest

/-- Property-assignment `obj[k] = v`: replace the existing entry, else append
(JS keeps a fresh key at the end of the enumeration order). -/
def setKey {α β : Type} [DecidableEq α] (l : List (α × β)) (k : α) (v : β) :
    List (α × β) :=
  match l with
  | [] => [(k, v)]
  | (k₁, v₁) :: rest => if k₁ = k then (k, v) :: rest else (k₁, v₁) :: setKey rest k v

/-- The mutable per-item computation state (`workItemsWithFields[id].state`).
`rollupInfo` values may be `NaN`, hence `JsNum`. -/
structure ItemState where
  rollupInfo : List (String × JsNum)
  isProcessed : Bool
  isUpdateRequired : Bool
deriving DecidableEq

/-- One entry of `workItemsWithFields`: the fetched numeric field snapshot
(string-valued metadata fields are irrelevant to the claims and omitted)
and the computation state. -/
structure WorkItem where
  fields : List (String × ℚ)
  state : ItemState
deriving DecidableEq

/-- The `vsoItems` wrapper: `workItemsHierarchy` maps a parent id to its direct
children, `workItemsWithFields` maps an id to its snapshot and state. -/
structure VsoItems where
  workItemsHierarchy : List (Nat × List Nat)
  workItemsWithFields : List (Nat × WorkItem)
deriving DecidableEq

/-- `vsoItems.workItemsWithFields[i]`. -/
def itemOf (s : VsoItems) (i : Nat) : Option WorkItem :=
  lookupKey i s.workItemsWithFields

/-- The state a `getWorkItemFields` result starts from:
`{rollupInfo: {}, isProcessed: false, isUpdateRequired: false}`. -/
def initState : ItemState := { rollupInfo := [], isProcessed := false, isUpdateRequired := false }

/-- Every item of the store still carries the freshly fetched state. -/
def Fresh (s : VsoItems) : Prop :=
  ∀ p ∈ s.workItemsWithFields, p.2.state = initState

instance : DecidablePred Fresh := fun s =>
  inferInstanceAs (Decidable (∀ p ∈ s.workItemsWithFields, p.2.state = initState))

/-! ## Update-decision policy (`evaluateUpdateRequired`, lines 184-197)

The `_.some` iteration stops at the first field whose callback returns `true`,
so `netSum` only accumulates the fields up to and including that one.  The
loop state is the pair (callback returned true, current `netSum`). -/

/-- One step of the `_.some` callback body: `netSum += rollupValue + currentValue`
(an `undefined` or `NaN` rollup value poisons the sum to `NaN`), and the
returned boolean `rollupValue != undefined && currentValue != rollupValue`. -/
def evalLoop (wi : WorkItem) : List String → JsNum → Bool × JsNum
  | [], acc => (false, acc)
  | f :: rest, acc =>
    let rollupValue : Option JsNum := lookupKey f wi.state.rollupInfo
    let currentValue : ℚ := (lookupKey f wi.fields).getD 0
    let acc₁ := jsAdd acc (jsAdd (rollupValue.getD none) (some currentValue))
    let changed : Bool :=
      match rollupValue with
      | some (some r) => decide (currentValue ≠ r)
      | some none => true
      | none => false
    if changed then (true, acc₁) else evalLoop wi rest acc₁

/-- JS `netSum > 0` (false when `netSum` is `NaN`). -/
def jsGtZero : JsNum → Bool
  | some q => decide (0 < q)
  | none => false

/-- `evaluateUpdateRequired(workItemFields)`: returns
`netSum > 0 && isSomeValueUpdated`. -/
def evaluateUpdateRequired (ftr : List String) (wi : WorkItem) : Bool :=
  let r := evalLoop wi ftr (some 0)
  jsGtZero r.2 && r.1

/-! Spec-side definitions for the update-decision claim, following the spec
words: `netSum = Σ(rollupValue + currentValue)` over **all** rollup fields,
and `anyChanged` iff some field has a defined rollup value different from the
current value. -/

/-- Modelled from the spec: the net sum over all rollup fields. -/
def netSumSpec (ftr : List String) (wi : WorkItem) : ℚ :=
  (ftr.map (fun f =>
    ((lookupKey f wi.state.rollupInfo).getD none).getD 0 +
      (lookupKey f wi.fields).getD 0)).sum

/-- Modelled from the spec: some field has `rollupValue` defined and
`rollupValue != currentValue`. -/
def anyChangedSpec (ftr : List String) (wi : WorkItem) : Bool :=
  ftr.any (fun f =>
    match lookupKey f wi.state.rollupInfo with
    | some (some r) => decide ((lookupKey f wi.fields).getD 0 ≠ r)
    | _ => false)

/-- Every rollup field has a defined, non-`NaN`, nonnegative rollup value. -/
def RollupDefinedNonneg (ftr : List String) (wi : WorkItem) : Prop :=
  ∀ f ∈ ftr, ∃ r : ℚ, lookupKey f wi.state.rollupInfo = some (some r) ∧ 0 ≤ r

/-- Every rollup field's current value (0 when absent) is nonnegative. -/
def FieldsNonneg (ftr : List String) (wi : WorkItem) : Prop :=
  ∀ f ∈ ftr, 0 ≤ ((lookupKey f wi.fields).getD 0 : ℚ)

theorem netSumSpec_nonneg (ftr : List String) (wi : WorkItem)
    (h1 : RollupDefinedNonneg ftr wi) (h2 : FieldsNonneg ftr wi) :
    0 ≤ netSumSpec ftr wi := by
  induction ftr with
  | nil => simp [netSumSpec]
  | cons f rest ih =>
    obtain ⟨r, hr, hr0⟩ := h1 f (by simp)
    have hc0 := h2 f (by simp)
    have hrest := ih (fun g hg => h1 g (by simp [hg])) (fun g hg => h2 g (by simp [hg]))
    simp only [netSumSpec, List.map_cons, List.sum_cons, hr, Option.getD_some]
    have : (0:ℚ) ≤ r + (lookupKey f wi.fields).getD 0 := add_nonneg hr0 hc0
    exact add_nonneg this hrest

theorem evalLoop_spec (wi : WorkItem) (L : List String) :
    ∀ a : ℚ, RollupDefinedNonneg L wi → FieldsNonneg L wi → 0 ≤ a →
      (jsGtZero (evalLoop wi L (some a)).2 && (evalLoop wi L (some a)).1)
        = (decide (0 < a + netSumSpec L wi) && anyChangedSpec L wi) := by
  induction L with
  | nil =>
    intro a _ _ _
    simp [evalLoop, anyChangedSpec, netSumSpec]
  | cons f rest ih =>
    intro a h1 h2 ha
    obtain ⟨r, hr, hr0⟩ := h1 f (by simp)
    have hc0 : (0:ℚ) ≤ (lookupKey f wi.fields).getD 0 := h2 f (by simp)
    have hsum0 : 0 ≤ netSumSpec rest wi :=
      netSumSpec_nonneg rest wi (fun g hg => h1 g (by simp [hg])) (fun g hg => h2 g (by simp [hg]))
    have hcons : netSumSpec (f :: rest) wi
        = (r + (lookupKey f wi.fields).getD 0) + netSumSpec rest wi := by
      simp [netSumSpec, hr]
    by_cases hch : (lookupKey f wi.fields).getD 0 = r
    · -- the callback returns false: the loop continues on `rest`
      have hstep : evalLoop wi (f :: rest) (some a)
          = evalLoop wi rest (some (a + (r + (lookupKey f wi.fields).getD 0))) := by
        simp [evalLoop, hr, jsAdd, hch]
      rw [hstep, ih (a + (r + (lookupKey f wi.fields).getD 0))
            (fun g hg => h1 g (by simp [hg])) (fun g hg => h2 g (by simp [hg]))
            (by linarith)]
      have hany : anyChangedSpec (f :: rest) wi = anyChangedSpec rest wi := by
        simp [anyChangedSpec, hr, hch]
      rw [hany, hcons]
      ring_nf
    · -- the callback returns true: `_.some` stops here
      have hstep : evalLoop wi (f :: rest) (some a)
          = (true, some (a + (r + (lookupKey f wi.fields).getD 0))) := by
        simp [evalLoop, hr, jsAdd, hch]
      have hpos : (0:ℚ) < r + (lookupKey f wi.fields).getD 0 := by
        rcases lt_or_eq_of_le (add_nonneg hr0 hc0) with h | h
        · exact h
        · exfalso
          have hr00 : r = 0 := by linarith [add_nonneg hr0 hc0, hr0, hc0]
          have hc00 : (lookupKey f wi.fields).getD 0 = (0:ℚ) := by linarith
          exact hch (by rw [hc00, hr00])
      have hany : anyChangedSpec (f :: rest) wi = true := by
        simp [anyChangedSpec, hr]
        exact Or.inl hch
      rw [hstep, hany, hcons]
      have e1 : (0:ℚ) < a + (r + (lookupKey f wi.fields).getD 0) := by linarith
      have e2 : (0:ℚ) < a + ((r + (lookupKey f wi.fields).getD 0) + netSumSpec rest wi) := by
        linarith
      simp [jsGtZero, e1, e2]

/-- Claim C1 (amended): when every rollup field has a defined, non-negative
rollup value and a non-negative current value, `evaluateUpdateRequired`
returns `netSum > 0 AND anyChanged` with `netSum` summed over all rollup
fields.  (Without the sign restriction the `_.some` short-circuit makes the
code sum only a prefix of the fields; see the counterexample.) -/
theorem updateRequired_nonneg_spec (ftr : List String) (wi : WorkItem)
    (h1 : RollupDefinedNonneg ftr wi) (h2 : FieldsNonneg ftr wi) :
    evaluateUpdateRequired ftr wi
      = (decide (0 < netSumSpec ftr wi) && anyChangedSpec ftr wi) := by
  have h := evalLoop_spec wi ftr 0 h1 h2 le_rfl
  simpa [evaluateUpdateRequired] using h

/-- An item state exercising the `_.some` short-circuit of
`evaluateUpdateRequired`: field "a" changed with a negative rollup value,
field "b" with a large positive one. -/
def wiShort : WorkItem :=
  { fields := [],
    state := { rollupInfo := [("a", some (-3)), ("b", some 10)],
               isProcessed := true, isUpdateRequired := false } }

unseal Rat.add Rat.mul Rat.inv in
/-- Claim C1, as stated, is false: with rollup values `{a: -3, b: 10}` and no
current values, the full net sum is `7 > 0` and field "a" changed, so the
claim demands `true`; the code stops summing at "a" (`netSum = -3`) and
returns `false`. -/
theorem updateRequired_shortCircuit_cex :
    evaluateUpdateRequired ["a", "b"] wiShort = false ∧
      anyChangedSpec ["a", "b"] wiShort = true ∧
      0 < netSumSpec ["a", "b"] wiShort := by
  refine ⟨by decide, by decide, by decide⟩

/-- A concrete instance of `updateRequired_nonneg_spec`: rollup 7 against a
current value of 5 on the single rollup field "a". -/
def wiPlain : WorkItem :=
  { fields := [("a", 5)],
    state := { rollupInfo := [("a", some 7)],
               isProcessed := true, isUpdateRequired := false } }

unseal Rat.add Rat.mul Rat.inv in
theorem updateRequired_nonneg_spec_witness :
    evaluateUpdateRequired ["a"] wiPlain
      = (decide (0 < netSumSpec ["a"] wiPlain) && anyChangedSpec ["a"] wiPlain) :=
  updateRequired_nonneg_spec ["a"] wiPlain
    (fun f hf => by
      have : f = "a" := by simpa using hf
      subst this
      exact ⟨7, rfl, by norm_num⟩)
    (fun f hf => by
      have : f = "a" := by simpa using hf
      subst this
      show (0:ℚ) ≤ (some (5:ℚ)).getD 0
      norm_num)

/-! ## Batched write coordinator (`updateCosts`, lines 200-256)

The coordinator is effectful only through the injected batch-write call and
the warning print; both are reified: the warning becomes the pair of counts
it prints, and the batch POST becomes a `List Nat → Except String Unit`
capability.  Numeric JS object keys enumerate in ascending order; the
association-list order of `workItemsWithFields` stands for that enumeration
order. -/

/-- Lines 201-203: `_.map(workItemsWithFields, (v,id) => id)` then
`_.filter(ids, id => ...state.isUpdateRequired)`. -/
def eligibleIds (items : List (Nat × WorkItem)) : List Nat :=
  (items.map (fun p => p.1)).filter (fun id =>
    match lookupKey id items with
    | some w => w.state.isUpdateRequired
    | none => false)

/-- `args.forcecap || config.get('maxUpdates')` (line 204): JS `||` treats
both `undefined` and `0` as falsy, so a forced cap of `0` falls back to the
configured `maxUpdates`. -/
def effectiveCap (forcecap : Option Nat) (maxUpdates : Nat) : Nat :=
  match forcecap with
  | some n => if n = 0 then maxUpdates else n
  | none => maxUpdates

/-- Lines 203-207: cap the filtered ids with `_.take`; the
`console.error` warning is reified as the pair (computed count, capped
count) it prints, emitted exactly when the two lengths differ. -/
def selectAndCap (items : List (Nat × WorkItem)) (cap : Nat) :
    List Nat × Option (Nat × Nat) :=
  let filteredIds := eligibleIds items
  let cappedIds := filteredIds.take cap
  (cappedIds,
    if filteredIds.length ≠ cappedIds.length then
      some (filteredIds.length, cappedIds.length)
    else none)

/-- Structural worker for `jsChunk`: the first argument bounds the number of
remaining recursion steps; `jsChunk` passes `l.length`, which suffices
because each step drops at least one element when `b ≥ 1`. -/
def jsChunkGo {α : Type} (b : Nat) : Nat → List α → List (List α)
  | _, [] => []
  | 0, _ :: _ => []
  | fuel + 1, x :: xs => (x :: xs).take b :: jsChunkGo b fuel ((x :: xs).drop b)

/-- lodash `_.chunk(l, b)` (line 209): consecutive slices of size `b`,
the empty list when `b < 1`. -/
def jsChunk {α : Type} (b : Nat) (l : List α) : List (List α) :=
  if b = 0 then [] else jsChunkGo b l.length l

/-- Lines 219-247: every chunk is submitted exactly once via the injected
batch-write capability; a succeeding chunk resolves its item count
(line 245), a failing one rejects with its error (line 246). -/
def submitBatches (wb : List Nat → Except String Unit) (chunks : List (List Nat)) :
    List (Except String Nat) :=
  chunks.map (fun c =>
    match wb c with
    | .ok _ => .ok c.length
    | .error e => .error e)

/-- `q.all(resultPromises)` plus the `_.reduce` sum (lines 249-253): the
first rejection rejects the whole call, otherwise the per-chunk counts are
summed. -/
def qAllSum : List (Except String Nat) → Except String Nat
  | [] => .ok 0
  | .error e :: _ => .error e
  | .ok n :: rest =>
    match qAllSum rest with
    | .ok m => .ok (n + m)
    | .error e => .error e

/-- The write phase of `updateCosts`: filter and cap the ids, chunk them,
submit every chunk, and aggregate the results. -/
def updateCosts (wb : List Nat → Except String Unit) (items : List (Nat × WorkItem))
    (forcecap : Option Nat) (maxUpdates batchSize : Nat) : Except String Nat :=
  qAllSum (submitBatches wb
    (jsChunk batchSize (selectAndCap items (effectiveCap forcecap maxUpdates)).1))

/-- Claim C6: with `N` eligible updates and a cap `K < N`, the coordinator
keeps exactly the first `K` eligible ids in their original order, and the
warning reports the computed count `N` and applied count `K`, whose
difference is the number of dropped ids; the run continues (the selection is
returned, not an error). -/
theorem updateCosts_capping (items : List (Nat × WorkItem)) (K : Nat)
    (h : K < (eligibleIds items).length) :
    (selectAndCap items K).1 = (eligibleIds items).take K ∧
    (selectAndCap items K).1.length = K ∧
    (selectAndCap items K).2 = some ((eligibleIds items).length, K) ∧
    (eligibleIds items).length - K = ((eligibleIds items).drop K).length := by
  have hlen : ((eligibleIds items).take K).length = K := by
    simp [List.length_take]
    omega
  refine ⟨rfl, hlen, ?_, by simp [List.length_drop]⟩
  have hne : (eligibleIds items).length ≠ ((eligibleIds items).take K).length := by
    rw [hlen]; omega
  simp only [selectAndCap]
  rw [if_pos hne, hlen]

/-- Three items, two of them flagged for update, capped to one. -/
def itemsCap : List (Nat × WorkItem) :=
  [(1, { fields := [], state := { rollupInfo := [], isProcessed := true, isUpdateRequired := true } }),
   (2, { fields := [], state := { rollupInfo := [], isProcessed := true, isUpdateRequired := false } }),
   (3, { fields := [], state := { rollupInfo := [], isProcessed := true, isUpdateRequired := true } })]

theorem updateCosts_capping_witness :
    (selectAndCap itemsCap 1).1 = (eligibleIds itemsCap).take 1 ∧
    (selectAndCap itemsCap 1).1.length = 1 ∧
    (selectAndCap itemsCap 1).2 = some ((eligibleIds itemsCap).length, 1) ∧
    (eligibleIds itemsCap).length - 1 = ((eligibleIds itemsCap).drop 1).length :=
  updateCosts_capping itemsCap 1 (by decide)

theorem jsChunkGo_flatten {α : Type} (b : Nat) (hb : 1 ≤ b) :
    ∀ (fuel : Nat) (l : List α), l.length ≤ fuel → (jsChunkGo b fuel l).flatten = l := by
  intro fuel
  induction fuel with
  | zero =>
    intro l hl
    cases l with
    | nil => simp [jsChunkGo]
    | cons x xs => simp at hl
  | succ n ih =>
    intro l hl
    cases l with
    | nil => simp [jsChunkGo]
    | cons x xs =>
      rw [jsChunkGo, List.flatten_cons,
        ih _ (by simp only [List.length_drop, List.length_cons]; simp at hl; omega),
        List.take_append_drop]

theorem jsChunk_flatten {α : Type} (b : Nat) (hb : 1 ≤ b) (l : List α) :
    (jsChunk b l).flatten = l := by
  rw [jsChunk, if_neg (by omega)]
  exact jsChunkGo_flatten b hb l.length l le_rfl

theorem jsChunkGo_length {α : Type} (b : Nat) (hb : 1 ≤ b) :
    ∀ (fuel : Nat) (l : List α), l.length ≤ fuel →
      (jsChunkGo b fuel l).length = (l.length + b - 1) / b := by
  intro fuel
  induction fuel with
  | zero =>
    intro l hl
    cases l with
    | nil => simpa [jsChunkGo] using (Nat.div_eq_of_lt (by omega)).symm
    | cons x xs => simp at hl
  | succ n ih =>
    intro l hl
    cases l with
    | nil => simpa [jsChunkGo] using (Nat.div_eq_of_lt (by omega)).symm
    | cons x xs =>
      have hlen : 1 ≤ (x :: xs).length := by simp
      rw [jsChunkGo, List.length_cons,
        ih _ (by simp only [List.length_drop, List.length_cons]; simp at hl; omega)]
      have hre : (x :: xs).length + b - 1 = ((x :: xs).length - 1) + b := by omega
      rw [List.length_drop, hre, Nat.add_div_right _ (by omega)]
      rcases le_or_lt (x :: xs).length b with hle | hlt
      · rw [Nat.sub_eq_zero_of_le hle]
        have h0 : ((0:Nat) + b - 1) / b = 0 := Nat.div_eq_of_lt (by omega)
        have h1 : ((x :: xs).length - 1) / b = 0 := Nat.div_eq_of_lt (by omega)
        omega
      · have hsplit : (x :: xs).length - b + b - 1 = (x :: xs).length - 1 := by omega
        rw [hsplit]

theorem jsChunk_length {α : Type} (b : Nat) (hb : 1 ≤ b) (l : List α) :
    (jsChunk b l).length = (l.length + b - 1) / b := by
  rw [jsChunk, if_neg (by omega)]
  exact jsChunkGo_length b hb l.length l le_rfl

theorem jsChunk_sum_lengths {α : Type} (b : Nat) (hb : 1 ≤ b) (l : List α) :
    ((jsChunk b l).map List.length).sum = l.length := by
  have h := congrArg List.length (jsChunk_flatten b hb l)
  simpa [List.length_flatten] using h

theorem qAllSum_ok (rs : List (Except String Nat))
    (h : ∀ r ∈ rs, ∃ n, r = Except.ok n) :
    qAllSum rs = Except.ok ((rs.map (fun r => match r with
      | .ok n => n
      | .error _ => 0)).sum) := by
  induction rs with
  | nil => simp [qAllSum]
  | cons r rest ih =>
    obtain ⟨n, rfl⟩ := h r (by simp)
    rw [qAllSum, ih (fun x hx => h x (by simp [hx]))]
    simp

/-- Claim C7: with batch size `B ≥ 1`, the capped id list is split into
`⌈M/B⌉` chunks whose concatenation is exactly the capped list (so their
union is the capped set, with no duplicates and in order), and when every
chunk submission succeeds the coordinator resolves with the total number of
submitted items `M`. -/
theorem updateCosts_batching (wb : List Nat → Except String Unit)
    (items : List (Nat × WorkItem)) (forcecap : Option Nat) (maxUpdates B : Nat)
    (hB : 1 ≤ B)
    (hok : ∀ ch ∈ jsChunk B (selectAndCap items (effectiveCap forcecap maxUpdates)).1,
      wb ch = Except.ok ()) :
    (jsChunk B (selectAndCap items (effectiveCap forcecap maxUpdates)).1).length
        = ((selectAndCap items (effectiveCap forcecap maxUpdates)).1.length + B - 1) / B ∧
    (jsChunk B (selectAndCap items (effectiveCap forcecap maxUpdates)).1).flatten
        = (selectAndCap items (effectiveCap forcecap maxUpdates)).1 ∧
    updateCosts wb items forcecap maxUpdates B
        = Except.ok (selectAndCap items (effectiveCap forcecap maxUpdates)).1.length := by
  set l := (selectAndCap items (effectiveCap forcecap maxUpdates)).1 with hl
  refine ⟨jsChunk_length B hB l, jsChunk_flatten B hB l, ?_⟩
  rw [updateCosts, ← hl]
  have hall : ∀ r ∈ submitBatches wb (jsChunk B l), ∃ n, r = Except.ok n := by
    intro r hr
    simp only [submitBatches, List.mem_map] at hr
    obtain ⟨c, hc, rfl⟩ := hr
    rw [hok c hc]
    exact ⟨c.length, rfl⟩
  rw [qAllSum_ok _ hall]
  congr 1
  have hmap : (submitBatches wb (jsChunk B l)).map (fun r => match r with
      | .ok n => n
      | .error _ => 0) = (jsChunk B l).map List.length := by
    simp only [submitBatches, List.map_map]
    refine List.map_congr_left ?_
    intro c hc
    simp [Function.comp, hok c hc]
  rw [hmap, jsChunk_sum_lengths B hB l]

theorem updateCosts_batching_witness :
    (jsChunk 2 (selectAndCap itemsCap (effectiveCap none 5)).1).length
        = ((selectAndCap itemsCap (effectiveCap none 5)).1.length + 2 - 1) / 2 ∧
    (jsChunk 2 (selectAndCap itemsCap (effectiveCap none 5)).1).flatten
        = (selectAndCap itemsCap (effectiveCap none 5)).1 ∧
    updateCosts (fun _ => Except.ok ()) itemsCap none 5 2
        = Except.ok (selectAndCap itemsCap (effectiveCap none 5)).1.length :=
  updateCosts_batching (fun _ => Except.ok ()) itemsCap none 5 2 (by omega)
    (fun ch _ => rfl)

theorem qAllSum_error (pre : List (Except String Nat)) (e : String)
    (post : List (Except String Nat))
    (hpre : ∀ r ∈ pre, ∃ n, r = Except.ok n) :
    qAllSum (pre ++ Except.error e :: post) = Except.error e := by
  induction pre with
  | nil => simp [qAllSum]
  | cons r rest ih =>
    obtain ⟨n, rfl⟩ := hpre r (by simp)
    rw [List.cons_append, qAllSum, ih (fun x hx => hpre x (by simp [hx]))]

/-- Claim C8: if one chunk's batch write rejects while every earlier chunk
succeeded, the whole `updateCosts` call rejects with that chunk's error;
every chunk (including the ones after the failing one) is still submitted
exactly once — no retry and no rollback. -/
theorem updateCosts_failFast (wb : List Nat → Except String Unit)
    (items : List (Nat × WorkItem)) (forcecap : Option Nat) (maxUpdates B : Nat)
    (pre : List (List Nat)) (c : List Nat) (post : List (List Nat)) (e : String)
    (hchunks : jsChunk B (selectAndCap items (effectiveCap forcecap maxUpdates)).1
        = pre ++ c :: post)
    (hpre : ∀ ch ∈ pre, wb ch = Except.ok ())
    (hc : wb c = Except.error e) :
    updateCosts wb items forcecap maxUpdates B = Except.error e ∧
    submitBatches wb (pre ++ c :: post)
        = (pre ++ c :: post).map (fun ch =>
            match wb ch with
            | .ok _ => Except.ok ch.length
            | .error e₁ => Except.error e₁) := by
  refine ⟨?_, rfl⟩
  rw [updateCosts, hchunks]
  have : submitBatches wb (pre ++ c :: post)
      = (submitBatches wb pre) ++ Except.error e :: submitBatches wb post := by
    simp [submitBatches, hc]
  rw [this]
  refine qAllSum_error _ e _ ?_
  intro r hr
  simp only [submitBatches, List.mem_map] at hr
  obtain ⟨ch, hch, rfl⟩ := hr
  rw [hpre ch hch]
  exact ⟨ch.length, rfl⟩

/-- A batch-write capability that fails exactly on the batch `[3]`. -/
def wbFail : List Nat → Except String Unit :=
  fun c => if c = [3] then Except.error "batch failed" else Except.ok ()

theorem updateCosts_failFast_witness :
    updateCosts wbFail itemsCap none 5 1 = Except.error "batch failed" ∧
    submitBatches wbFail ([[1]] ++ [3] :: [])
        = ([[1]] ++ [3] :: []).map (fun ch =>
            match wbFail ch with
            | .ok _ => Except.ok ch.length
            | .error e₁ => Except.error e₁) :=
  updateCosts_failFast wbFail itemsCap none 5 1 [[1]] [3] [] "batch failed"
    rfl
    (fun ch hch => by
      rw [List.mem_singleton] at hch
      subst hch
      rfl)
    rfl

/-- Claim C10: a CLI-forced cap of `0` is falsy in JS, so the effective cap
silently becomes `maxUpdates`: the selection still takes up to `maxUpdates`
eligible ids, and is non-empty whenever there is an eligible item and
`maxUpdates ≥ 1`. -/
theorem forcecap_zero_falls_back (items : List (Nat × WorkItem)) (m : Nat)
    (hm : 1 ≤ m) (he : 1 ≤ (eligibleIds items).length) :
    effectiveCap (some 0) m = m ∧
    (selectAndCap items (effectiveCap (some 0) m)).1 = (eligibleIds items).take m ∧
    1 ≤ (selectAndCap items (effectiveCap (some 0) m)).1.length := by
  refine ⟨rfl, rfl, ?_⟩
  show 1 ≤ ((eligibleIds items).take (effectiveCap (some 0) m)).length
  simp only [List.length_take, effectiveCap, if_pos rfl]
  exact le_min hm he

theorem forcecap_zero_falls_back_witness :
    effectiveCap (some 0) 5 = 5 ∧
    (selectAndCap itemsCap (effectiveCap (some 0) 5)).1 = (eligibleIds itemsCap).take 5 ∧
    1 ≤ (selectAndCap itemsCap (effectiveCap (some 0) 5)).1.length :=
  forcecap_zero_falls_back itemsCap 5 (by omega) (by decide)

/-! ## Rollup engine (`rollupCosts` / `rollupCostsForItem`, lines 258-290)

The JS function mutates `vsoItems` in place through the alias
`workItemFields = vsoItems.workItemsWithFields[itemId]`; here every
assignment is an explicit update of the single state value, and the aliased
reads re-look-up the item (equivalent, because entries are never removed).
The unbounded recursion gets an explicit fuel parameter; a run that exhausts
its fuel (a cyclic hierarchy) and a thrown `TypeError` (a child id with no
snapshot, line 264 on an `undefined` item) are both `none`. -/

/-- Replace the stored entry of item `i` (entries are never removed, and
`setItem` is only used on ids that are present). -/
def setItem (s : VsoItems) (i : Nat) (w : WorkItem) : VsoItems :=
  { s with workItemsWithFields := setKey s.workItemsWithFields i w }

/-- Overwrite `workItemsWithFields[i].state.rollupInfo`; the identity when
`i` has no entry (unreachable from the call sites). -/
def writeRollup (s : VsoItems) (i : Nat) (ri : List (String × JsNum)) : VsoItems :=
  match itemOf s i with
  | some w => setItem s i { w with state := { w.state with rollupInfo := ri } }
  | none => s

/-- Line 272: for a leaf, `rollupInfo[f] = fields[f] || 0` for each rollup
field in order. -/
def leafRollup (ftr : List String) (wi : WorkItem) : List (String × JsNum) :=
  ftr.foldl (fun acc f => setKey acc f (some ((lookupKey f wi.fields).getD 0))) wi.state.rollupInfo

/-- Line 274: initialise every rollup-field accumulator to 0. -/
def initRollup (ftr : List String) (wi : WorkItem) : List (String × JsNum) :=
  ftr.foldl (fun acc f => setKey acc f (some 0)) wi.state.rollupInfo

/-- Lines 282-283 for one field: `rollupInfo[f] += child.rollupInfo[f]`
followed by `rollupInfo[f] = Math.round(rollupInfo[f]*100)/100`; `none` when
either item id has no entry (the JS dereference would throw). -/
def applyChildField (s : VsoItems) (itemId childId : Nat) (f : String) : Option VsoItems :=
  match itemOf s itemId, itemOf s childId with
  | some p, some c =>
      some (writeRollup s itemId (setKey p.state.rollupInfo f
        (round2N (jsAdd ((lookupKey f p.state.rollupInfo).getD none)
                        ((lookupKey f c.state.rollupInfo).getD none)))))
  | _, _ => none

/-- The inner `_.each(fieldsToRollup, ...)` of lines 281-284. -/
def addChild (itemId childId : Nat) : List String → VsoItems → Option VsoItems
  | [], s => some s
  | f :: rest, s =>
    match applyChildField s itemId childId f with
    | some s₁ => addChild itemId childId rest s₁
    | none => none

/-- The outer `_.each(hierarchyInfo, ...)` of lines 279-285: recursively
process each child (via `step`), then fold its values into the parent. -/
def processChildren (step : VsoItems → Nat → Option VsoItems) (ftr : List String)
    (itemId : Nat) : VsoItems → List Nat → Option VsoItems
  | s, [] => some s
  | s, c :: rest =>
    match step s c with
    | some s₁ =>
      match addChild itemId c ftr s₁ with
      | some s₂ => processChildren step ftr itemId s₂ rest
      | none => none
    | none => none

/-- Line 288: `workItemFields.state.isProcessed = true`. -/
def markProcessed (w : WorkItem) : WorkItem :=
  { w with state := { w.state with isProcessed := true } }

/-- Lines 288-289 applied to one item value: mark processed, then store the
update decision evaluated on the just-marked item. -/
def finishedItem (ftr : List String) (w : WorkItem) : WorkItem :=
  { markProcessed w with state :=
      { (markProcessed w).state with
          isUpdateRequired := evaluateUpdateRequired ftr (markProcessed w) } }

/-- Lines 288-289: set `isProcessed = true`, then store
`evaluateUpdateRequired` of the updated item. -/
def finishItem (ftr : List String) (s : VsoItems) (itemId : Nat) : Option VsoItems :=
  match itemOf s itemId with
  | some w => some (setItem s itemId (finishedItem ftr w))
  | none => none

/-- One unfolding of `rollupCostsForItem(vsoItems, itemId)` with the
recursive call abstracted as `step`: dereference the item (line 263 throws
on a missing id), return unchanged under the `isProcessed` guard, otherwise
run the leaf or children branch and finish the item. -/
def rollupBody (step : VsoItems → Nat → Option VsoItems) (ftr : List String)
    (s : VsoItems) (itemId : Nat) : Option VsoItems :=
  match itemOf s itemId with
  | none => none
  | some wi =>
    if wi.state.isProcessed then some s
    else
      match
        (match lookupKey itemId s.workItemsHierarchy with
         | none => some (writeRollup s itemId (leafRollup ftr wi))
         | some childIds =>
             processChildren step ftr itemId (writeRollup s itemId (initRollup ftr wi)) childIds)
      with
      | some s₁ => finishItem ftr s₁ itemId
      | none => none

/-- `rollupCostsForItem` with fuel: each recursion level spends one unit. -/
def rollupCostsForItem (ftr : List String) : Nat → VsoItems → Nat → Option VsoItems
  | 0 => fun _ _ => none
  | fuel + 1 => rollupBody (rollupCostsForItem ftr fuel) ftr

/-- The fold of `rollupCosts` (line 259) over the hierarchy key list. -/
def rollupCostsGo (ftr : List String) (fuel : Nat) :
    VsoItems → List (Nat × List Nat) → Option VsoItems
  | s, [] => some s
  | s, (itemId, _) :: rest =>
    match rollupCostsForItem ftr fuel s itemId with
    | some s₁ => rollupCostsGo ftr fuel s₁ rest
    | none => none

/-- `rollupCosts(vsoItems)`: enter the traversal once per hierarchy key. -/
def rollupCosts (ftr : List String) (fuel : Nat) (s : VsoItems) : Option VsoItems :=
  rollupCostsGo ftr fuel s s.workItemsHierarchy

/-! ### Association-list and single-step lemmas -/

theorem lookupKey_setKey_self {α β : Type} [DecidableEq α] (l : List (α × β)) (k : α) (v : β) :
    lookupKey k (setKey l k v) = some v := by
  induction l with
  | nil => simp [setKey, lookupKey]
  | cons p rest ih =>
    obtain ⟨k₁, v₁⟩ := p
    by_cases h : k₁ = k
    · subst h
      simp [setKey, lookupKey]
    · simp [setKey, lookupKey, h, ih]

theorem lookupKey_setKey_ne {α β : Type} [DecidableEq α] (l : List (α × β)) (k j : α) (v : β)
    (h : j ≠ k) : lookupKey j (setKey l k v) = lookupKey j l := by
  induction l with
  | nil =>
    simp only [setKey, lookupKey]
    exact if_neg fun hh => h hh.symm
  | cons p rest ih =>
    obtain ⟨k₁, v₁⟩ := p
    by_cases hk : k₁ = k
    · subst hk
      simp only [setKey, if_pos rfl, lookupKey]
      rw [if_neg fun hh => h hh.symm, if_neg fun hh => h hh.symm]
    · simp only [setKey, if_neg hk, lookupKey]
      by_cases hj : k₁ = j
      · rw [if_pos hj, if_pos hj]
      · rw [if_neg hj, if_neg hj, ih]

theorem lookupKey_setKey_isSome {α β : Type} [DecidableEq α] (l : List (α × β)) (k j : α)
    (v : β) (hk : (lookupKey k l).isSome = true) :
    (lookupKey j (setKey l k v)).isSome = (lookupKey j l).isSome := by
  by_cases h : j = k
  · subst h
    simp [lookupKey_setKey_self, hk]
  · rw [lookupKey_setKey_ne l k j v h]

theorem lookupKey_mem {α β : Type} [DecidableEq α] (l : List (α × β)) (k : α) (v : β)
    (h : lookupKey k l = some v) : (k, v) ∈ l := by
  induction l with
  | nil => simp [lookupKey] at h
  | cons p rest ih =>
    obtain ⟨k₁, v₁⟩ := p
    by_cases hk : k₁ = k
    · subst hk
      simp [lookupKey] at h
      simp [h]
    · simp only [lookupKey, if_neg hk] at h
      simp [ih h]

theorem lookupKey_foldl_not_mem {α β : Type} [DecidableEq α] (val : α → β) (L : List α) :
    ∀ (l : List (α × β)) (f : α), f ∉ L →
      lookupKey f (L.foldl (fun acc g => setKey acc g (val g)) l) = lookupKey f l := by
  induction L with
  | nil => intro l f _; rfl
  | cons g rest ih =>
    intro l f hf
    have hfg : f ≠ g := fun h => hf (by simp [h])
    have hfr : f ∉ rest := fun h => hf (by simp [h])
    rw [List.foldl_cons, ih _ f hfr, lookupKey_setKey_ne _ _ _ _ hfg]

theorem lookupKey_foldl_mem {α β : Type} [DecidableEq α] (val : α → β) (L : List α) :
    ∀ (l : List (α × β)) (f : α), f ∈ L →
      lookupKey f (L.foldl (fun acc g => setKey acc g (val g)) l) = some (val f) := by
  induction L with
  | nil => intro l f hf; simp at hf
  | cons g rest ih =>
    intro l f hf
    by_cases hfr : f ∈ rest
    · rw [List.foldl_cons]
      exact ih _ f hfr
    · have hfg : f = g := by
        rcases List.mem_cons.mp hf with h | h
        · exact h
        · exact absurd h hfr
      subst hfg
      rw [List.foldl_cons, lookupKey_foldl_not_mem val rest _ f hfr, lookupKey_setKey_self]

theorem itemOf_setItem_self (s : VsoItems) (i : Nat) (w : WorkItem) :
    itemOf (setItem s i w) i = some w :=
  lookupKey_setKey_self s.workItemsWithFields i w

theorem itemOf_setItem_ne (s : VsoItems) (i j : Nat) (w : WorkItem) (h : j ≠ i) :
    itemOf (setItem s i w) j = itemOf s j :=
  lookupKey_setKey_ne s.workItemsWithFields i j w h

theorem setItem_hier (s : VsoItems) (i : Nat) (w : WorkItem) :
    (setItem s i w).workItemsHierarchy = s.workItemsHierarchy := rfl

theorem writeRollup_hier (s : VsoItems) (i : Nat) (ri : List (String × JsNum)) :
    (writeRollup s i ri).workItemsHierarchy = s.workItemsHierarchy := by
  unfold writeRollup
  cases itemOf s i <;> rfl

theorem itemOf_writeRollup_self (s : VsoItems) (i : Nat) (ri : List (String × JsNum))
    (w : WorkItem) (h : itemOf s i = some w) :
    itemOf (writeRollup s i ri) i
      = some { w with state := { w.state with rollupInfo := ri } } := by
  unfold writeRollup
  rw [h]
  exact itemOf_setItem_self s i _

theorem itemOf_writeRollup_ne (s : VsoItems) (i j : Nat) (ri : List (String × JsNum))
    (h : j ≠ i) : itemOf (writeRollup s i ri) j = itemOf s j := by
  unfold writeRollup
  cases hh : itemOf s i with
  | none => rfl
  | some w => exact itemOf_setItem_ne s i j _ h

theorem finishItem_inv (ftr : List String) (s : VsoItems) (i : Nat) (t : VsoItems)
    (h : finishItem ftr s i = some t) :
    ∃ w, itemOf s i = some w ∧ t = setItem s i (finishedItem ftr w) := by
  unfold finishItem at h
  cases hh : itemOf s i with
  | none => rw [hh] at h; exact absurd h (by simp)
  | some w =>
    rw [hh] at h
    exact ⟨w, rfl, (Option.some_inj.mp h).symm⟩

theorem finishedItem_fields (ftr : List String) (w : WorkItem) :
    (finishedItem ftr w).fields = w.fields := rfl

theorem finishedItem_rollupInfo (ftr : List String) (w : WorkItem) :
    (finishedItem ftr w).state.rollupInfo = w.state.rollupInfo := rfl

theorem finishedItem_isProcessed (ftr : List String) (w : WorkItem) :
    (finishedItem ftr w).state.isProcessed = true := rfl

theorem addChild_cons_inv (i c : Nat) (f : String) (rest : List String) (s t : VsoItems)
    (h : addChild i c (f :: rest) s = some t) :
    ∃ s₁, applyChildField s i c f = some s₁ ∧ addChild i c rest s₁ = some t := by
  unfold addChild at h
  cases hh : applyChildField s i c f with
  | none => rw [hh] at h; exact absurd h (by simp)
  | some s₁ =>
    rw [hh] at h
    exact ⟨s₁, rfl, h⟩

theorem applyChildField_inv (s : VsoItems) (i c : Nat) (f : String) (t : VsoItems)
    (h : applyChildField s i c f = some t) :
    ∃ p cw, itemOf s i = some p ∧ itemOf s c = some cw ∧
      t = writeRollup s i (setKey p.state.rollupInfo f
        (round2N (jsAdd ((lookupKey f p.state.rollupInfo).getD none)
                        ((lookupKey f cw.state.rollupInfo).getD none)))) := by
  unfold applyChildField at h
  cases hp : itemOf s i with
  | none => rw [hp] at h; exact absurd h (by simp)
  | some p =>
    cases hc : itemOf s c with
    | none => rw [hp, hc] at h; exact absurd h (by simp)
    | some cw =>
      rw [hp, hc] at h
      exact ⟨p, cw, rfl, rfl, (Option.some_inj.mp h).symm⟩

theorem processChildren_cons_inv (step : VsoItems → Nat → Option VsoItems)
    (ftr : List String) (i : Nat) (s : VsoItems) (c : Nat) (rest : List Nat) (t : VsoItems)
    (h : processChildren step ftr i s (c :: rest) = some t) :
    ∃ s₁ s₂, step s c = some s₁ ∧ addChild i c ftr s₁ = some s₂ ∧
      processChildren step ftr i s₂ rest = some t := by
  unfold processChildren at h
  split at h
  next s₁ h₁ =>
    split at h
    next s₂ h₂ => exact ⟨s₁, s₂, h₁, h₂, h⟩
    next => exact absurd h (by simp)
  next => exact absurd h (by simp)

theorem rollupBody_inv (step : VsoItems → Nat → Option VsoItems) (ftr : List String)
    (s : VsoItems) (i : Nat) (t : VsoItems) (h : rollupBody step ftr s i = some t) :
    ∃ wi, itemOf s i = some wi ∧
      ((wi.state.isProcessed = true ∧ t = s) ∨
        (wi.state.isProcessed = false ∧ ∃ s₁,
          ((lookupKey i s.workItemsHierarchy = none ∧
              s₁ = writeRollup s i (leafRollup ftr wi)) ∨
            (∃ cs, lookupKey i s.workItemsHierarchy = some cs ∧
              processChildren step ftr i (writeRollup s i (initRollup ftr wi)) cs = some s₁)) ∧
          finishItem ftr s₁ i = some t)) := by
  unfold rollupBody at h
  split at h
  next => exact absurd h (by simp)
  next wi hwi =>
    refine ⟨wi, hwi, ?_⟩
    split at h
    next hp => exact Or.inl ⟨hp, (Option.some_inj.mp h).symm⟩
    next hp =>
      refine Or.inr ⟨by simpa using hp, ?_⟩
      split at h
      next s₁ hs₁ =>
        refine ⟨s₁, ?_, h⟩
        split at hs₁
        next hnone => exact Or.inl ⟨hnone, (Option.some_inj.mp hs₁).symm⟩
        next cs hcs => exact Or.inr ⟨cs, hcs, hs₁⟩
      next => exact absurd h (by simp)

theorem rollupCostsForItem_succ (ftr : List String) (fuel : Nat) :
    rollupCostsForItem ftr (fuel + 1) = rollupBody (rollupCostsForItem ftr fuel) ftr := rfl

theorem rollupCostsForItem_zero (ftr : List String) (s : VsoItems) (i : Nat) :
    rollupCostsForItem ftr 0 s i = none := rfl

theorem rollupCostsGo_cons_inv (ftr : List String) (fuel : Nat) (s : VsoItems)
    (p : Nat × List Nat) (rest : List (Nat × List Nat)) (t : VsoItems)
    (h : rollupCostsGo ftr fuel s (p :: rest) = some t) :
    ∃ s₁, rollupCostsForItem ftr fuel s p.1 = some s₁ ∧
      rollupCostsGo ftr fuel s₁ rest = some t := by
  obtain ⟨i, cs⟩ := p
  unfold rollupCostsGo at h
  split at h
  next s₁ h₁ => exact ⟨s₁, h₁, h⟩
  next => exact absurd h (by simp)

/-! ### What a successful traversal call preserves -/

/-- Item `i` has an entry and its `isProcessed` flag is set. -/
def processedIn (s : VsoItems) (i : Nat) : Prop :=
  ∃ w, itemOf s i = some w ∧ w.state.isProcessed = true

/-- The state change of one engine operation while item `X` is mid-processing:
the hierarchy is untouched, no entry appears or disappears, every processed
item other than `X` keeps its entry verbatim, and every surviving entry keeps
its fetched `fields`. -/
structure CoreRelEx (X : Nat) (s t : VsoItems) : Prop where
  hier : t.workItemsHierarchy = s.workItemsHierarchy
  domain : ∀ j, (itemOf t j).isSome = (itemOf s j).isSome
  procStable : ∀ j w, j ≠ X → itemOf s j = some w → w.state.isProcessed = true →
    itemOf t j = some w
  fieldsStable : ∀ j w₁, itemOf t j = some w₁ → ∃ w, itemOf s j = some w ∧ w₁.fields = w.fields

/-- As `CoreRelEx`, but protecting every processed item. -/
structure CoreRel (s t : VsoItems) : Prop where
  hier : t.workItemsHierarchy = s.workItemsHierarchy
  domain : ∀ j, (itemOf t j).isSome = (itemOf s j).isSome
  procStable : ∀ j w, itemOf s j = some w → w.state.isProcessed = true → itemOf t j = some w
  fieldsStable : ∀ j w₁, itemOf t j = some w₁ → ∃ w, itemOf s j = some w ∧ w₁.fields = w.fields

theorem CoreRelEx.reflEx (X : Nat) (s : VsoItems) : CoreRelEx X s s :=
  ⟨Eq.refl _, fun _ => Eq.refl _, fun _ _ _ h _ => h, fun j w₁ h => ⟨w₁, h, Eq.refl _⟩⟩

theorem CoreRelEx.compEx {X : Nat} {s t u : VsoItems}
    (h₁ : CoreRelEx X s t) (h₂ : CoreRelEx X t u) : CoreRelEx X s u := by
  refine ⟨h₂.hier.trans h₁.hier, fun j => (h₂.domain j).trans (h₁.domain j), ?_, ?_⟩
  · intro j w hj hw hproc
    exact h₂.procStable j w hj (h₁.procStable j w hj hw hproc) hproc
  · intro j w₂ hw₂
    obtain ⟨w₁, hw₁, hf₁⟩ := h₂.fieldsStable j w₂ hw₂
    obtain ⟨w, hw, hf⟩ := h₁.fieldsStable j w₁ hw₁
    exact ⟨w, hw, hf₁.trans hf⟩

theorem CoreRel.reflRel (s : VsoItems) : CoreRel s s :=
  ⟨Eq.refl _, fun _ => Eq.refl _, fun _ _ h _ => h, fun j w₁ h => ⟨w₁, h, Eq.refl _⟩⟩

theorem CoreRel.compRel {s t u : VsoItems} (h₁ : CoreRel s t) (h₂ : CoreRel t u) :
    CoreRel s u := by
  refine ⟨h₂.hier.trans h₁.hier, fun j => (h₂.domain j).trans (h₁.domain j), ?_, ?_⟩
  · intro j w hw hproc
    exact h₂.procStable j w (h₁.procStable j w hw hproc) hproc
  · intro j w₂ hw₂
    obtain ⟨w₁, hw₁, hf₁⟩ := h₂.fieldsStable j w₂ hw₂
    obtain ⟨w, hw, hf⟩ := h₁.fieldsStable j w₁ hw₁
    exact ⟨w, hw, hf₁.trans hf⟩

theorem CoreRel.toEx (X : Nat) {s t : VsoItems} (h : CoreRel s t) : CoreRelEx X s t :=
  ⟨h.hier, h.domain, fun j w _ hw hp => h.procStable j w hw hp, h.fieldsStable⟩

theorem CoreRelEx.toCoreRel {i : Nat} {s t : VsoItems} {wi : WorkItem}
    (hwi : itemOf s i = some wi) (hproc : wi.state.isProcessed = false)
    (h : CoreRelEx i s t) : CoreRel s t := by
  refine ⟨h.hier, h.domain, ?_, h.fieldsStable⟩
  intro j w hw hp
  by_cases hj : j = i
  · subst hj
    rw [hwi] at hw
    cases Option.some_inj.mp hw
    rw [hproc] at hp
    exact absurd hp (by simp)
  · exact h.procStable j w hj hw hp

theorem setItem_coreRelEx (s : VsoItems) (i : Nat) (w₀ w : WorkItem)
    (h : itemOf s i = some w₀) (hf : w.fields = w₀.fields) :
    CoreRelEx i s (setItem s i w) := by
  refine ⟨Eq.refl _, ?_, ?_, ?_⟩
  · intro j
    exact lookupKey_setKey_isSome s.workItemsWithFields i j w
      (by rw [show lookupKey i s.workItemsWithFields = some w₀ from h]; rfl)
  · intro j w₁ hj hw₁ _
    rw [itemOf_setItem_ne s i j w hj]
    exact hw₁
  · intro j w₁ hw₁
    by_cases hj : j = i
    · subst hj
      rw [itemOf_setItem_self s j w] at hw₁
      cases Option.some_inj.mp hw₁
      exact ⟨w₀, h, hf⟩
    · rw [itemOf_setItem_ne s i j w hj] at hw₁
      exact ⟨w₁, hw₁, Eq.refl _⟩

theorem writeRollup_coreRelEx (s : VsoItems) (i : Nat) (ri : List (String × JsNum))
    (w₀ : WorkItem) (h : itemOf s i = some w₀) : CoreRelEx i s (writeRollup s i ri) := by
  unfold writeRollup
  rw [h]
  exact setItem_coreRelEx s i w₀ _ h (Eq.refl _)

theorem finishItem_coreRelEx (ftr : List String) (s : VsoItems) (i : Nat) (t : VsoItems)
    (h : finishItem ftr s i = some t) : CoreRelEx i s t := by
  obtain ⟨w, hw, rfl⟩ := finishItem_inv ftr s i t h
  exact setItem_coreRelEx s i w _ hw (finishedItem_fields ftr w)

theorem applyChildField_coreRelEx (s : VsoItems) (i c : Nat) (f : String) (t : VsoItems)
    (h : applyChildField s i c f = some t) : CoreRelEx i s t := by
  obtain ⟨p, cw, hp, hc, rfl⟩ := applyChildField_inv s i c f t h
  exact writeRollup_coreRelEx s i _ p hp

theorem addChild_coreRelEx (i c : Nat) (ftr : List String) :
    ∀ (s t : VsoItems), addChild i c ftr s = some t → CoreRelEx i s t := by
  induction ftr with
  | nil =>
    intro s t h
    cases Option.some_inj.mp h
    exact CoreRelEx.reflEx i s
  | cons f rest ih =>
    intro s t h
    obtain ⟨s₁, h₁, h₂⟩ := addChild_cons_inv i c f rest s t h
    exact (applyChildField_coreRelEx s i c f s₁ h₁).compEx (ih s₁ t h₂)

theorem processChildren_coreRelEx (step : VsoItems → Nat → Option VsoItems)
    (ftr : List String) (i : Nat)
    (hstep : ∀ s c t, step s c = some t → CoreRelEx i s t) :
    ∀ (cs : List Nat) (s t : VsoItems), processChildren step ftr i s cs = some t →
      CoreRelEx i s t := by
  intro cs
  induction cs with
  | nil =>
    intro s t h
    cases Option.some_inj.mp h
    exact CoreRelEx.reflEx i s
  | cons c rest ih =>
    intro s t h
    obtain ⟨s₁, s₂, h₁, h₂, h₃⟩ := processChildren_cons_inv step ftr i s c rest t h
    exact ((hstep s c s₁ h₁).compEx (addChild_coreRelEx i c ftr s₁ s₂ h₂)).compEx (ih s₂ t h₃)

theorem rollupBody_coreRel (step : VsoItems → Nat → Option VsoItems) (ftr : List String)
    (s : VsoItems) (i : Nat) (t : VsoItems)
    (hstep : ∀ s₁ c t₁, step s₁ c = some t₁ → CoreRel s₁ t₁)
    (h : rollupBody step ftr s i = some t) : CoreRel s t := by
  obtain ⟨wi, hwi, hcase⟩ := rollupBody_inv step ftr s i t h
  rcases hcase with ⟨_, hts⟩ | ⟨hp, s₁, hbr, hfin⟩
  · subst hts
    exact CoreRel.reflRel _
  · have hfinRel := finishItem_coreRelEx ftr s₁ i t hfin
    have hmid : CoreRelEx i s s₁ := by
      rcases hbr with ⟨_, rfl⟩ | ⟨cs, _, hpc⟩
      · exact writeRollup_coreRelEx s i _ wi hwi
      · exact (writeRollup_coreRelEx s i _ wi hwi).compEx
          (processChildren_coreRelEx step ftr i
            (fun s₂ c t₂ hc => (hstep s₂ c t₂ hc).toEx i) cs _ s₁ hpc)
    exact CoreRelEx.toCoreRel hwi hp (hmid.compEx hfinRel)

theorem rollupCostsForItem_coreRel (ftr : List String) :
    ∀ (fuel : Nat) (s : VsoItems) (i : Nat) (t : VsoItems),
      rollupCostsForItem ftr fuel s i = some t → CoreRel s t := by
  intro fuel
  induction fuel with
  | zero =>
    intro s i t h
    exact absurd h (by simp [rollupCostsForItem_zero])
  | succ n ih =>
    intro s i t h
    rw [rollupCostsForItem_succ] at h
    exact rollupBody_coreRel _ ftr s i t (fun s₁ c t₁ hc => ih s₁ c t₁ hc) h

theorem rollupCostsGo_coreRel (ftr : List String) (fuel : Nat) :
    ∀ (keys : List (Nat × List Nat)) (s t : VsoItems),
      rollupCostsGo ftr fuel s keys = some t → CoreRel s t := by
  intro keys
  induction keys with
  | nil =>
    intro s t h
    cases Option.some_inj.mp h
    exact CoreRel.reflRel s
  | cons q rest ih =>
    intro s t h
    obtain ⟨s₁, h₁, h₂⟩ := rollupCostsGo_cons_inv ftr fuel s q rest t h
    exact (rollupCostsForItem_coreRel ftr fuel s q.1 s₁ h₁).compRel (ih s₁ t h₂)

theorem rollupCosts_coreRel (ftr : List String) (fuel : Nat) (s t : VsoItems)
    (h : rollupCosts ftr fuel s = some t) : CoreRel s t :=
  rollupCostsGo_coreRel ftr fuel s.workItemsHierarchy s t h

theorem rollupCostsForItem_processed (ftr : List String) (fuel : Nat) (s : VsoItems)
    (i : Nat) (t : VsoItems) (h : rollupCostsForItem ftr fuel s i = some t) :
    processedIn t i := by
  cases fuel with
  | zero => exact absurd h (by simp [rollupCostsForItem_zero])
  | succ n =>
    rw [rollupCostsForItem_succ] at h
    obtain ⟨wi, hwi, hcase⟩ := rollupBody_inv _ ftr s i t h
    rcases hcase with ⟨hp, rfl⟩ | ⟨hp, s₁, hbr, hfin⟩
    · exact ⟨wi, hwi, hp⟩
    · obtain ⟨w, hw, rfl⟩ := finishItem_inv ftr s₁ i t hfin
      exact ⟨finishedItem ftr w, itemOf_setItem_self s₁ i _, finishedItem_isProcessed ftr w⟩

theorem rollupCostsGo_processed (ftr : List String) (fuel : Nat) :
    ∀ (keys : List (Nat × List Nat)) (s t : VsoItems),
      rollupCostsGo ftr fuel s keys = some t → ∀ p ∈ keys, processedIn t p.1 := by
  intro keys
  induction keys with
  | nil =>
    intro s t _ p hp
    simp at hp
  | cons q rest ih =>
    intro s t h p hp
    obtain ⟨s₁, h₁, h₂⟩ := rollupCostsGo_cons_inv ftr fuel s q rest t h
    rcases List.mem_cons.mp hp with rfl | hp
    · obtain ⟨w, hw, hproc⟩ := rollupCostsForItem_processed ftr fuel s p.1 s₁ h₁
      exact ⟨w, (rollupCostsGo_coreRel ftr fuel rest s₁ t h₂).procStable p.1 w hw hproc, hproc⟩
    · exact ih s₁ t h₂ p hp

theorem rollupCosts_processed (ftr : List String) (fuel : Nat) (s t : VsoItems)
    (h : rollupCosts ftr fuel s = some t) (i : Nat) (cs : List Nat)
    (hk : lookupKey i s.workItemsHierarchy = some cs) : processedIn t i :=
  rollupCostsGo_processed ftr fuel s.workItemsHierarchy s t h (i, cs)
    (lookupKey_mem s.workItemsHierarchy i cs hk)

/-- Claim C5: after a completed traversal, entering `rollupCostsForItem` again
on any item that was a traversal entry point returns the state unchanged: the
`isProcessed` guard fires immediately. -/
theorem rollup_idempotent (ftr : List String) (fuel fuel₂ : Nat) (s t : VsoItems)
    (i : Nat) (cs : List Nat)
    (hrun : rollupCosts ftr fuel s = some t)
    (hkey : lookupKey i s.workItemsHierarchy = some cs)
    (hf : 0 < fuel₂) :
    rollupCostsForItem ftr fuel₂ t i = some t := by
  obtain ⟨w, hw, hproc⟩ := rollupCosts_processed ftr fuel s t hrun i cs hkey
  cases fuel₂ with
  | zero => omega
  | succ n =>
    rw [rollupCostsForItem_succ]
    unfold rollupBody
    rw [hw]
    simp [hproc]

/-! ### Items a call can modify, bounded by a rank function

Acyclicity of the hierarchy is witnessed by a rank function that strictly
decreases along every parent-to-child edge.  A successful call on item `i`
can only modify items of rank at most `rank i`; in particular processing one
child of `i` never touches `i` itself. -/

/-- Every hierarchy edge decreases the rank (a witness of acyclicity). -/
def RankOK (rank : Nat → Nat) (H : List (Nat × List Nat)) : Prop :=
  ∀ p ∈ H, ∀ c ∈ p.2, rank c < rank p.1

instance (rank : Nat → Nat) (H : List (Nat × List Nat)) : Decidable (RankOK rank H) :=
  inferInstanceAs (Decidable (∀ p ∈ H, ∀ c ∈ p.2, rank c < rank p.1))

theorem RankOK.edge {rank : Nat → Nat} {H : List (Nat × List Nat)} (h : RankOK rank H)
    {i : Nat} {cs : List Nat} {c : Nat} (hp : lookupKey i H = some cs) (hc : c ∈ cs) :
    rank c < rank i :=
  h (i, cs) (lookupKey_mem H i cs hp) c hc

theorem addChild_unmodified (i c : Nat) (ftr : List String) :
    ∀ (s t : VsoItems), addChild i c ftr s = some t →
      ∀ j, j ≠ i → itemOf t j = itemOf s j := by
  induction ftr with
  | nil =>
    intro s t h j hj
    cases Option.some_inj.mp h
    rfl
  | cons f rest ih =>
    intro s t h j hj
    obtain ⟨s₁, h₁, h₂⟩ := addChild_cons_inv i c f rest s t h
    obtain ⟨p, cw, hp, hc, rfl⟩ := applyChildField_inv s i c f s₁ h₁
    rw [ih _ t h₂ j hj, itemOf_writeRollup_ne s i j _ hj]

theorem finishItem_unmodified (ftr : List String) (s : VsoItems) (i : Nat) (t : VsoItems)
    (h : finishItem ftr s i = some t) : ∀ j, j ≠ i → itemOf t j = itemOf s j := by
  obtain ⟨w, hw, rfl⟩ := finishItem_inv ftr s i t h
  intro j hj
  exact itemOf_setItem_ne s i j _ hj

theorem processChildren_rank (ftr : List String) (rank : Nat → Nat) (fuel : Nat) (i : Nat)
    (hstep : ∀ s c t, RankOK rank s.workItemsHierarchy →
      rollupCostsForItem ftr fuel s c = some t →
      ∀ j, itemOf t j ≠ itemOf s j → rank j ≤ rank c) :
    ∀ (cs : List Nat) (s t : VsoItems), RankOK rank s.workItemsHierarchy →
      (∀ c ∈ cs, rank c < rank i) →
      processChildren (rollupCostsForItem ftr fuel) ftr i s cs = some t →
      ∀ j, itemOf t j ≠ itemOf s j → rank j ≤ rank i := by
  intro cs
  induction cs with
  | nil =>
    intro s t _ _ h j hj
    cases Option.some_inj.mp h
    exact absurd rfl hj
  | cons c rest ih =>
    intro s t hrank hcs h j hj
    obtain ⟨s₁, s₂, h₁, h₂, h₃⟩ := processChildren_cons_inv _ ftr i s c rest t h
    have hier₁ : s₁.workItemsHierarchy = s.workItemsHierarchy :=
      (rollupCostsForItem_coreRel ftr fuel s c s₁ h₁).hier
    have hier₂ : s₂.workItemsHierarchy = s₁.workItemsHierarchy :=
      (addChild_coreRelEx i c ftr s₁ s₂ h₂).hier
    by_cases e₁ : itemOf s₁ j = itemOf s j
    · by_cases e₂ : itemOf s₂ j = itemOf s₁ j
      · -- the change happened in the tail
        have : itemOf t j ≠ itemOf s₂ j := fun e₃ => hj (e₃.trans (e₂.trans e₁))
        exact ih s₂ t (by rw [hier₂, hier₁]; exact hrank)
          (fun d hd => hcs d (by simp [hd])) h₃ j this
      · -- `addChild` only touches `i`
        by_cases hji : j = i
        · subst hji; exact le_refl _
        · exact absurd (addChild_unmodified i c ftr s₁ s₂ h₂ j hji) e₂
    · -- the recursive call on `c` touched `j`
      have := hstep s c s₁ hrank h₁ j e₁
      exact le_of_lt (lt_of_le_of_lt this (hcs c (by simp)))

theorem rollupCostsForItem_rank (ftr : List String) (rank : Nat → Nat) :
    ∀ (fuel : Nat) (s : VsoItems) (i : Nat) (t : VsoItems),
      RankOK rank s.workItemsHierarchy →
      rollupCostsForItem ftr fuel s i = some t →
      ∀ j, itemOf t j ≠ itemOf s j → rank j ≤ rank i := by
  intro fuel
  induction fuel with
  | zero =>
    intro s i t _ h
    exact absurd h (by simp [rollupCostsForItem_zero])
  | succ n ih =>
    intro s i t hrank h j hj
    rw [rollupCostsForItem_succ] at h
    obtain ⟨wi, hwi, hcase⟩ := rollupBody_inv _ ftr s i t h
    rcases hcase with ⟨_, hts⟩ | ⟨hp, s₁, hbr, hfin⟩
    · subst hts
      exact absurd rfl hj
    · by_cases hji : j = i
      · subst hji; exact le_refl _
      · have hfin₁ : itemOf t j = itemOf s₁ j := finishItem_unmodified ftr s₁ i t hfin j hji
        rcases hbr with ⟨_, hs₁⟩ | ⟨cs, hcs, hpc⟩
        · subst hs₁
          exact absurd (hfin₁.trans (itemOf_writeRollup_ne s i j _ hji)) hj
        · have hw : itemOf (writeRollup s i (initRollup ftr wi)) j = itemOf s j :=
            itemOf_writeRollup_ne s i j _ hji
          by_cases e : itemOf s₁ j = itemOf (writeRollup s i (initRollup ftr wi)) j
          · exact absurd (hfin₁.trans (e.trans hw)) hj
          · have hrank₀ : RankOK rank (writeRollup s i (initRollup ftr wi)).workItemsHierarchy := by
              rw [writeRollup_hier]; exact hrank
            exact processChildren_rank ftr rank n i
              (fun s₂ c t₂ hr hcall => ih s₂ c t₂ hr hcall) cs _ s₁ hrank₀
              (fun d hd => hrank.edge hcs hd) hpc j e

/-- A child call never touches an item of strictly larger rank — in
particular the parent that is mid-processing. -/
theorem child_call_preserves (ftr : List String) (rank : Nat → Nat) (fuel : Nat)
    (s : VsoItems) (i c : Nat) (t : VsoItems)
    (hrank : RankOK rank s.workItemsHierarchy) (hlt : rank c < rank i)
    (h : rollupCostsForItem ftr fuel s c = some t) : itemOf t i = itemOf s i := by
  by_contra e
  have := rollupCostsForItem_rank ftr rank fuel s c t hrank h i e
  omega

/-! ### Leaf identity (claim C4) -/

/-- Every processed leaf carries `rollupInfo[f] = fields[f] || 0` for each
rollup field. -/
def InvLeaf (ftr : List String) (s : VsoItems) : Prop :=
  ∀ i w, itemOf s i = some w → w.state.isProcessed = true →
    lookupKey i s.workItemsHierarchy = none →
    ∀ f ∈ ftr, lookupKey f w.state.rollupInfo
      = some (some ((lookupKey f w.fields).getD 0))

theorem leafRollup_lookup (ftr : List String) (wi : WorkItem) (f : String) (hf : f ∈ ftr) :
    lookupKey f (leafRollup ftr wi) = some (some ((lookupKey f wi.fields).getD 0)) :=
  lookupKey_foldl_mem (fun g => some ((lookupKey g wi.fields).getD 0)) ftr
    wi.state.rollupInfo f hf

theorem initRollup_lookup (ftr : List String) (wi : WorkItem) (f : String) (hf : f ∈ ftr) :
    lookupKey f (initRollup ftr wi) = some (some 0) :=
  lookupKey_foldl_mem (fun _ => (some 0 : JsNum)) ftr wi.state.rollupInfo f hf

theorem invLeaf_writeRollup (ftr : List String) (s : VsoItems) (i : Nat)
    (ri : List (String × JsNum)) (wi : WorkItem) (hwi : itemOf s i = some wi)
    (hp : wi.state.isProcessed = false) (h : InvLeaf ftr s) :
    InvLeaf ftr (writeRollup s i ri) := by
  intro j w hjw hproc hleaf f hf
  rw [writeRollup_hier] at hleaf
  by_cases hji : j = i
  · subst hji
    rw [itemOf_writeRollup_self s j ri wi hwi] at hjw
    cases Option.some_inj.mp hjw
    have hwp : wi.state.isProcessed = true := hproc
    rw [hp] at hwp
    exact absurd hwp (by simp)
  · rw [itemOf_writeRollup_ne s i j ri hji] at hjw
    exact h j w hjw hproc hleaf f hf

theorem invLeaf_only_item_changed (ftr : List String) (s t : VsoItems) (i : Nat)
    (cs : List Nat) (hhier : t.workItemsHierarchy = s.workItemsHierarchy)
    (hcs : lookupKey i s.workItemsHierarchy = some cs)
    (hunmod : ∀ j, j ≠ i → itemOf t j = itemOf s j)
    (h : InvLeaf ftr s) : InvLeaf ftr t := by
  intro j w hjw hproc hleaf f hf
  rw [hhier] at hleaf
  by_cases hji : j = i
  · subst hji
    rw [hcs] at hleaf
    exact absurd hleaf (by simp)
  · rw [hunmod j hji] at hjw
    exact h j w hjw hproc hleaf f hf

theorem processChildren_invLeaf (ftr : List String) (fuel : Nat) (i : Nat) (cs₀ : List Nat)
    (hstep : ∀ s c t, rollupCostsForItem ftr fuel s c = some t →
      InvLeaf ftr s → InvLeaf ftr t) :
    ∀ (cs : List Nat) (s t : VsoItems), lookupKey i s.workItemsHierarchy = some cs₀ →
      processChildren (rollupCostsForItem ftr fuel) ftr i s cs = some t →
      InvLeaf ftr s → InvLeaf ftr t := by
  intro cs
  induction cs with
  | nil =>
    intro s t _ h hinv
    cases Option.some_inj.mp h
    exact hinv
  | cons c rest ihl =>
    intro s t hcsi h hinv
    obtain ⟨s₁, s₂, h₁, h₂, h₃⟩ := processChildren_cons_inv _ ftr i s c rest t h
    have hier₁ := (rollupCostsForItem_coreRel ftr fuel s c s₁ h₁).hier
    have hier₂ := (addChild_coreRelEx i c ftr s₁ s₂ h₂).hier
    have hinv₂ : InvLeaf ftr s₂ := invLeaf_only_item_changed ftr s₁ s₂ i cs₀
      hier₂ (by rw [hier₁]; exact hcsi) (addChild_unmodified i c ftr s₁ s₂ h₂)
      (hstep s c s₁ h₁ hinv)
    exact ihl s₂ t (by rw [hier₂, hier₁]; exact hcsi) h₃ hinv₂

theorem rollupCostsForItem_invLeaf (ftr : List String) :
    ∀ (fuel : Nat) (s : VsoItems) (i : Nat) (t : VsoItems),
      rollupCostsForItem ftr fuel s i = some t → InvLeaf ftr s → InvLeaf ftr t := by
  intro fuel
  induction fuel with
  | zero =>
    intro s i t h _
    exact absurd h (by simp [rollupCostsForItem_zero])
  | succ n ih =>
    intro s i t h hinv
    rw [rollupCostsForItem_succ] at h
    obtain ⟨wi, hwi, hcase⟩ := rollupBody_inv _ ftr s i t h
    rcases hcase with ⟨_, hts⟩ | ⟨hp, s₁, hbr, hfin⟩
    · subst hts
      exact hinv
    · obtain ⟨w₁, hw₁, hts⟩ := finishItem_inv ftr s₁ i t hfin
      subst hts
      rcases hbr with ⟨hleafi, hs₁⟩ | ⟨cs, hcsi, hpc⟩
      · -- leaf branch: item `i` becomes a processed leaf with the identity
        subst hs₁
        rw [itemOf_writeRollup_self s i _ wi hwi] at hw₁
        cases Option.some_inj.mp hw₁
        intro j w hjw hproc hleaf f hf
        by_cases hji : j = i
        · subst hji
          rw [itemOf_setItem_self] at hjw
          cases Option.some_inj.mp hjw
          exact leafRollup_lookup ftr wi f hf
        · rw [setItem_hier, writeRollup_hier] at hleaf
          rw [itemOf_setItem_ne _ i j _ hji, itemOf_writeRollup_ne s i j _ hji] at hjw
          exact hinv j w hjw hproc hleaf f hf
      · -- children branch: item `i` is not a leaf, recursion is handled by `ih`
        have hinv₀ : InvLeaf ftr (writeRollup s i (initRollup ftr wi)) :=
          invLeaf_writeRollup ftr s i _ wi hwi hp hinv
        have hcs₀ : lookupKey i (writeRollup s i (initRollup ftr wi)).workItemsHierarchy
            = some cs := by rw [writeRollup_hier]; exact hcsi
        have hinv₁ : InvLeaf ftr s₁ :=
          processChildren_invLeaf ftr n i cs (fun s₂ c t₂ hc => ih s₂ c t₂ hc) cs
            _ s₁ hcs₀ hpc hinv₀
        have hier₁ : s₁.workItemsHierarchy = s.workItemsHierarchy := by
          rw [(processChildren_coreRelEx _ ftr i
            (fun s₂ c t₂ hc => (rollupCostsForItem_coreRel ftr n s₂ c t₂ hc).toEx i)
            cs _ s₁ hpc).hier, writeRollup_hier]
        exact invLeaf_only_item_changed ftr s₁ _ i cs (setItem_hier s₁ i _)
          (by rw [hier₁]; exact hcsi)
          (fun j hj => itemOf_setItem_ne s₁ i j _ hj) hinv₁

theorem rollupCostsGo_invLeaf (ftr : List String) (fuel : Nat) :
    ∀ (keys : List (Nat × List Nat)) (s t : VsoItems),
      rollupCostsGo ftr fuel s keys = some t → InvLeaf ftr s → InvLeaf ftr t := by
  intro keys
  induction keys with
  | nil =>
    intro s t h hinv
    cases Option.some_inj.mp h
    exact hinv
  | cons q rest ih =>
    intro s t h hinv
    obtain ⟨s₁, h₁, h₂⟩ := rollupCostsGo_cons_inv ftr fuel s q rest t h
    exact ih s₁ t h₂ (rollupCostsForItem_invLeaf ftr fuel s q.1 s₁ h₁ hinv)

theorem fresh_invLeaf (ftr : List String) (s : VsoItems) (h : Fresh s) : InvLeaf ftr s := by
  intro i w hiw hproc _ f _
  have := h (i, w) (lookupKey_mem s.workItemsWithFields i w hiw)
  rw [show w.state = initState from this] at hproc
  exact absurd hproc (by simp [initState])

/-- Claim C4 (amended): after a successful traversal from fresh state, every
leaf item that the traversal actually visited (its `isProcessed` flag is set)
carries, for each rollup field, the current field value if present, else 0;
its field snapshot is the one fetched before the run.  (An orphan leaf —
never a hierarchy key and never anyone's child — is not visited and keeps an
empty `rollupInfo`; see the counterexample.) -/
theorem rollup_leaf_identity (ftr : List String) (fuel : Nat) (s t : VsoItems)
    (i : Nat) (w : WorkItem)
    (hfresh : Fresh s) (hrun : rollupCosts ftr fuel s = some t)
    (hw : itemOf t i = some w) (hproc : w.state.isProcessed = true)
    (hleaf : lookupKey i t.workItemsHierarchy = none) :
    (∀ f ∈ ftr, lookupKey f w.state.rollupInfo
        = some (some ((lookupKey f w.fields).getD 0))) ∧
    ∃ w₀, itemOf s i = some w₀ ∧ w.fields = w₀.fields := by
  refine ⟨rollupCostsGo_invLeaf ftr fuel s.workItemsHierarchy s t hrun
      (fresh_invLeaf ftr s hfresh) i w hw hproc hleaf, ?_⟩
  exact (rollupCosts_coreRel ftr fuel s t hrun).fieldsStable i w hw

/-- A work item with no fields and a fresh state. -/
def blankItem : WorkItem := { fields := [], state := initState }

/-- A fresh store: parent 1 with children 2 and 3; 3 has no "a" field. -/
def sExV : VsoItems :=
  { workItemsHierarchy := [(1, [2, 3])],
    workItemsWithFields :=
      [(1, { fields := [("a", 0)], state := initState }),
       (2, { fields := [("a", 3)], state := initState }),
       (3, blankItem)] }

/-- The result of the traversal on `sExV`. -/
def tExV : VsoItems := (rollupCosts ["a"] 3 sExV).getD sExV

/-- Item 2 after the traversal on `sExV`. -/
def wExV : WorkItem := (itemOf tExV 2).getD blankItem

unseal Rat.add Rat.mul Rat.inv in
theorem rollup_leaf_identity_witness :
    (∀ f ∈ ["a"], lookupKey f wExV.state.rollupInfo
        = some (some ((lookupKey f wExV.fields).getD 0))) ∧
    ∃ w₀, itemOf sExV 2 = some w₀ ∧ wExV.fields = w₀.fields :=
  rollup_leaf_identity ["a"] 3 sExV tExV 2 wExV (by decide) (by decide) (by decide)
    (by decide) (by decide)

/-- A fresh store with an orphan costed leaf: item 3 is in no hierarchy
relation at all, but carries field "a" = 5. -/
def sOrphCex : VsoItems :=
  { workItemsHierarchy := [(1, [2])],
    workItemsWithFields :=
      [(1, blankItem),
       (2, { fields := [("a", 5)], state := initState }),
       (3, { fields := [("a", 5)], state := initState })] }

/-- The result of the traversal on `sOrphCex`. -/
def tOrphCex : VsoItems := (rollupCosts ["a"] 2 sOrphCex).getD sOrphCex

unseal Rat.add Rat.mul Rat.inv in
/-- Claim C4, as stated, is false: the traversal completes, item 3 is a leaf
(absent from the hierarchy index as a parent key), its current "a" value is
5, yet its computed rollup value is `undefined`, not 5 — orphaned items are
never visited. -/
theorem rollup_leaf_identity_cex :
    rollupCosts ["a"] 2 sOrphCex = some tOrphCex ∧
    lookupKey 3 tOrphCex.workItemsHierarchy = none ∧
    (itemOf tOrphCex 3).map (fun w => lookupKey "a" w.fields) = some (some 5) ∧
    (itemOf tOrphCex 3).map (fun w =>
      decide (lookupKey "a" w.state.rollupInfo
        = some (some ((lookupKey "a" w.fields).getD 0)))) = some false := by
  refine ⟨by decide, by decide, by decide, by decide⟩

unseal Rat.add Rat.mul Rat.inv in
theorem rollup_idempotent_witness :
    rollupCostsForItem ["a"] 1 tExV 1 = some tExV :=
  rollup_idempotent ["a"] 3 1 sExV tExV 1 [2, 3] (by decide) (by decide) (by omega)

/-! ### Additivity (claim C2) -/

/-- The value the parent loop reads for a child:
`vsoItems.workItemsWithFields[childId].state.rollupInfo[fieldName]`
(`NaN` when the slot is undefined; the missing-entry case is unreachable
after a successful recursive call). -/
def childVal (s : VsoItems) (f : String) (c : Nat) : JsNum :=
  match itemOf s c with
  | some w => (lookupKey f w.state.rollupInfo).getD none
  | none => none

/-- What the children loop computes for one field: starting from 0, add each
child's value and round after each addition (lines 279-285). -/
def childFold (s : VsoItems) (f : String) (cs : List Nat) : JsNum :=
  cs.foldl (fun acc c => round2N (jsAdd acc (childVal s f c))) (some 0)

/-- Modelled from the spec: the plain sum `Σ children.rollupInfo[f]`, to be
rounded once at the end (the claim's `round2(Σ ...)`). -/
def childSumSpec (s : VsoItems) (f : String) (cs : List Nat) : JsNum :=
  cs.foldl (fun acc c => jsAdd acc (childVal s f c)) (some 0)

/-- Every processed non-leaf has processed children and carries, for each
rollup field, the sequentially rounded fold of its children's values. -/
def InvAdd (ftr : List String) (s : VsoItems) : Prop :=
  ∀ i w cs, itemOf s i = some w → w.state.isProcessed = true →
    lookupKey i s.workItemsHierarchy = some cs →
    (∀ c ∈ cs, processedIn s c) ∧
    (∀ f ∈ ftr, lookupKey f w.state.rollupInfo = some (childFold s f cs))

theorem childVal_eq_of_itemOf_eq {s t : VsoItems} {c : Nat}
    (h : itemOf t c = itemOf s c) (f : String) : childVal t f c = childVal s f c := by
  unfold childVal
  rw [h]

theorem foldl_childVal_congr (f : String) (s t : VsoItems) :
    ∀ (cs : List Nat) (a : JsNum), (∀ c ∈ cs, childVal t f c = childVal s f c) →
      cs.foldl (fun acc c => round2N (jsAdd acc (childVal t f c))) a
        = cs.foldl (fun acc c => round2N (jsAdd acc (childVal s f c))) a := by
  intro cs
  induction cs with
  | nil => intro a _; rfl
  | cons c rest ih =>
    intro a h
    simp only [List.foldl_cons]
    rw [h c (by simp), ih _ (fun d hd => h d (by simp [hd]))]

theorem childFold_congr {s t : VsoItems} {f : String} (cs : List Nat)
    (h : ∀ c ∈ cs, childVal t f c = childVal s f c) :
    childFold t f cs = childFold s f cs :=
  foldl_childVal_congr f s t cs (some 0) h

/-- `InvAdd` survives a change that only touches one unprocessed item that
stays unprocessed. -/
theorem invAdd_only_unprocessed_changed (ftr : List String) (s t : VsoItems) (i : Nat)
    (hhier : t.workItemsHierarchy = s.workItemsHierarchy)
    (hunmod : ∀ j, j ≠ i → itemOf t j = itemOf s j)
    (hiu : ∀ w, itemOf s i = some w → w.state.isProcessed = false)
    (hit : ∀ w, itemOf t i = some w → w.state.isProcessed = false)
    (h : InvAdd ftr s) : InvAdd ftr t := by
  intro j w cs hjw hproc hcs
  rw [hhier] at hcs
  have hji : j ≠ i := by
    intro e
    subst e
    rw [hit w hjw] at hproc
    exact absurd hproc (by simp)
  rw [hunmod j hji] at hjw
  obtain ⟨hkids, hvals⟩ := h j w cs hjw hproc hcs
  have hkid_ne : ∀ c ∈ cs, c ≠ i := by
    intro c hc e
    subst e
    obtain ⟨cw, hcw, hcp⟩ := hkids c hc
    rw [hiu cw hcw] at hcp
    exact absurd hcp (by simp)
  refine ⟨?_, ?_⟩
  · intro c hc
    obtain ⟨cw, hcw, hcp⟩ := hkids c hc
    exact ⟨cw, by rw [hunmod c (hkid_ne c hc)]; exact hcw, hcp⟩
  · intro f hf
    rw [hvals f hf]
    congr 1
    exact (childFold_congr cs (fun c hc =>
      childVal_eq_of_itemOf_eq (hunmod c (hkid_ne c hc)) f)).symm

/-- `InvAdd` survives a change that only touches an item that is not a
hierarchy key, provided that item was unprocessed before. -/
theorem invAdd_nonkey_changed (ftr : List String) (s t : VsoItems) (i : Nat)
    (hhier : t.workItemsHierarchy = s.workItemsHierarchy)
    (hleafi : lookupKey i s.workItemsHierarchy = none)
    (hunmod : ∀ j, j ≠ i → itemOf t j = itemOf s j)
    (hiu : ∀ w, itemOf s i = some w → w.state.isProcessed = false)
    (h : InvAdd ftr s) : InvAdd ftr t := by
  intro j w cs hjw hproc hcs
  rw [hhier] at hcs
  have hji : j ≠ i := by
    intro e
    subst e
    rw [hleafi] at hcs
    exact absurd hcs (by simp)
  rw [hunmod j hji] at hjw
  obtain ⟨hkids, hvals⟩ := h j w cs hjw hproc hcs
  have hkid_ne : ∀ c ∈ cs, c ≠ i := by
    intro c hc e
    subst e
    obtain ⟨cw, hcw, hcp⟩ := hkids c hc
    rw [hiu cw hcw] at hcp
    exact absurd hcp (by simp)
  refine ⟨?_, ?_⟩
  · intro c hc
    obtain ⟨cw, hcw, hcp⟩ := hkids c hc
    exact ⟨cw, by rw [hunmod c (hkid_ne c hc)]; exact hcw, hcp⟩
  · intro f hf
    rw [hvals f hf]
    congr 1
    exact (childFold_congr cs (fun c hc =>
      childVal_eq_of_itemOf_eq (hunmod c (hkid_ne c hc)) f)).symm

/-- The inner fields loop, fully characterised: for a duplicate-free field
list it updates each parent slot once to the rounded sum with the child's
value, touches nothing else, and keeps the parent's flags and fields. -/
theorem addChild_values (ftr : List String) (i c : Nat) (hci : c ≠ i) :
    ftr.Nodup →
    ∀ (s t : VsoItems) (p : WorkItem), itemOf s i = some p →
      addChild i c ftr s = some t →
      ∃ p₁, itemOf t i = some p₁ ∧ p₁.fields = p.fields ∧
        p₁.state.isProcessed = p.state.isProcessed ∧
        (∀ f ∈ ftr, lookupKey f p₁.state.rollupInfo
          = some (round2N (jsAdd ((lookupKey f p.state.rollupInfo).getD none)
              (childVal s f c)))) ∧
        (∀ g, g ∉ ftr → lookupKey g p₁.state.rollupInfo = lookupKey g p.state.rollupInfo) ∧
        (∀ j, j ≠ i → itemOf t j = itemOf s j) := by
  induction ftr with
  | nil =>
    intro _ s t p hp h
    cases Option.some_inj.mp h
    exact ⟨p, hp, Eq.refl _, Eq.refl _, by simp, fun g _ => Eq.refl _, fun j _ => Eq.refl _⟩
  | cons f rest ih =>
    intro hnd s t p hp h
    have hfr : f ∉ rest := (List.nodup_cons.mp hnd).1
    have hndr : rest.Nodup := (List.nodup_cons.mp hnd).2
    obtain ⟨s₁, h₁, h₂⟩ := addChild_cons_inv i c f rest s t h
    obtain ⟨p₀, cw, hp₀, hcw, hs₁⟩ := applyChildField_inv s i c f s₁ h₁
    rw [hp] at hp₀
    cases Option.some_inj.mp hp₀
    have hcv : childVal s f c = (lookupKey f cw.state.rollupInfo).getD none := by
      unfold childVal
      rw [hcw]
    subst hs₁
    obtain ⟨p₀, hp₀m, hp₀f, hp₀p, hp₀ri⟩ :
        ∃ p₀, itemOf (writeRollup s i (setKey p.state.rollupInfo f
            (round2N (jsAdd ((lookupKey f p.state.rollupInfo).getD none)
              ((lookupKey f cw.state.rollupInfo).getD none))))) i = some p₀ ∧
          p₀.fields = p.fields ∧ p₀.state.isProcessed = p.state.isProcessed ∧
          p₀.state.rollupInfo = setKey p.state.rollupInfo f
            (round2N (jsAdd ((lookupKey f p.state.rollupInfo).getD none)
              ((lookupKey f cw.state.rollupInfo).getD none))) :=
      ⟨_, itemOf_writeRollup_self s i _ p hp, Eq.refl _, Eq.refl _, Eq.refl _⟩
    have hunmod₁ : ∀ j, j ≠ i →
        itemOf (writeRollup s i (setKey p.state.rollupInfo f
            (round2N (jsAdd ((lookupKey f p.state.rollupInfo).getD none)
              ((lookupKey f cw.state.rollupInfo).getD none))))) j = itemOf s j :=
      fun j hj => itemOf_writeRollup_ne s i j _ hj
    obtain ⟨p₁, hp₁t, hfields, hflag, hvals, hother, hunmod⟩ :=
      ih hndr _ t _ hp₀m h₂
    refine ⟨p₁, hp₁t, hfields.trans hp₀f, hflag.trans hp₀p, ?_, ?_, ?_⟩
    · intro g hg
      rcases List.mem_cons.mp hg with rfl | hgr
      · rw [hother g hfr, hp₀ri, hcv]
        exact lookupKey_setKey_self p.state.rollupInfo g _
      · rw [hvals g hgr, hp₀ri,
          lookupKey_setKey_ne p.state.rollupInfo f g _ (fun e => hfr (e ▸ hgr)),
          childVal_eq_of_itemOf_eq (hunmod₁ c hci) g]
    · intro g hg
      have hgf : g ≠ f := fun e => hg (by simp [e])
      have hgr : g ∉ rest := fun e => hg (by simp [e])
      rw [hother g hgr, hp₀ri]
      exact lookupKey_setKey_ne p.state.rollupInfo f g _ hgf
    · intro j hj
      rw [hunmod j hj, hunmod₁ j hj]

/-- The children loop, fully characterised: it accumulates, per rollup field,
the fold of the children's values with rounding after each addition, leaves
every child processed, and preserves `InvAdd`. -/
theorem processChildren_fold (ftr : List String) (hnd : ftr.Nodup) (rank : Nat → Nat)
    (fuel : Nat) (i : Nat)
    (hstepInv : ∀ s c t, RankOK rank s.workItemsHierarchy →
      rollupCostsForItem ftr fuel s c = some t → InvAdd ftr s → InvAdd ftr t) :
    ∀ (cs : List Nat) (s t : VsoItems) (p : WorkItem) (A : String → JsNum),
      RankOK rank s.workItemsHierarchy →
      (∀ c ∈ cs, rank c < rank i) →
      itemOf s i = some p → p.state.isProcessed = false →
      (∀ f ∈ ftr, lookupKey f p.state.rollupInfo = some (A f)) →
      InvAdd ftr s →
      processChildren (rollupCostsForItem ftr fuel) ftr i s cs = some t →
      ∃ p₁, itemOf t i = some p₁ ∧ p₁.fields = p.fields ∧
        p₁.state.isProcessed = false ∧
        (∀ f ∈ ftr, lookupKey f p₁.state.rollupInfo
          = some (cs.foldl (fun acc c => round2N (jsAdd acc (childVal t f c))) (A f))) ∧
        (∀ c ∈ cs, processedIn t c) ∧
        InvAdd ftr t := by
  intro cs
  induction cs with
  | nil =>
    intro s t p A _ _ hp hpu hA hinv h
    cases Option.some_inj.mp h
    exact ⟨p, hp, Eq.refl _, hpu, by simpa using hA, by simp, hinv⟩
  | cons c rest ihcs =>
    intro s t p A hrank hcs hp hpu hA hinv h
    obtain ⟨s₁, s₂, h₁, h₂, h₃⟩ := processChildren_cons_inv _ ftr i s c rest t h
    have hlt : rank c < rank i := hcs c (by simp)
    have hci : c ≠ i := fun e => absurd hlt (by rw [e]; exact lt_irrefl _)
    have hip : itemOf s₁ i = itemOf s i :=
      child_call_preserves ftr rank fuel s i c s₁ hrank hlt h₁
    have hp₁ : itemOf s₁ i = some p := by rw [hip]; exact hp
    have hier₁ : s₁.workItemsHierarchy = s.workItemsHierarchy :=
      (rollupCostsForItem_coreRel ftr fuel s c s₁ h₁).hier
    have hrank₁ : RankOK rank s₁.workItemsHierarchy := by rw [hier₁]; exact hrank
    have hinv₁ : InvAdd ftr s₁ := hstepInv s c s₁ hrank h₁ hinv
    obtain ⟨cw₁, hcw₁, hcp₁⟩ := rollupCostsForItem_processed ftr fuel s c s₁ h₁
    obtain ⟨p₂, hp₂, hp₂f, hp₂p, hp₂vals, hp₂other, hp₂unmod⟩ :=
      addChild_values ftr i c hci hnd s₁ s₂ p hp₁ h₂
    have hp₂u : p₂.state.isProcessed = false := by rw [hp₂p]; exact hpu
    have hier₂ : s₂.workItemsHierarchy = s₁.workItemsHierarchy :=
      (addChild_coreRelEx i c ftr s₁ s₂ h₂).hier
    have hrank₂ : RankOK rank s₂.workItemsHierarchy := by rw [hier₂]; exact hrank₁
    have hinv₂ : InvAdd ftr s₂ := invAdd_only_unprocessed_changed ftr s₁ s₂ i hier₂
      hp₂unmod
      (fun w hw => by rw [hp₁] at hw; cases Option.some_inj.mp hw; exact hpu)
      (fun w hw => by rw [hp₂] at hw; cases Option.some_inj.mp hw; exact hp₂u)
      hinv₁
    have hp₂A : ∀ f ∈ ftr, lookupKey f p₂.state.rollupInfo
        = some (round2N (jsAdd (A f) (childVal s₁ f c))) := by
      intro f hf
      rw [hp₂vals f hf, hA f hf]
      rfl
    obtain ⟨p₁, hp₁t, hp₁f, hp₁u, hp₁vals, hkids, hinvt⟩ :=
      ihcs s₂ t p₂ (fun f => round2N (jsAdd (A f) (childVal s₁ f c))) hrank₂
        (fun d hd => hcs d (by simp [hd])) hp₂ hp₂u hp₂A hinv₂ h₃
    have hcw₂ : itemOf s₂ c = some cw₁ := by rw [hp₂unmod c hci]; exact hcw₁
    have hcwt : itemOf t c = some cw₁ :=
      (processChildren_coreRelEx _ ftr i
        (fun s₃ d t₃ hd => (rollupCostsForItem_coreRel ftr fuel s₃ d t₃ hd).toEx i)
        rest s₂ t h₃).procStable c cw₁ hci hcw₂ hcp₁
    refine ⟨p₁, hp₁t, hp₁f.trans hp₂f, hp₁u, ?_, ?_, hinvt⟩
    · intro f hf
      rw [hp₁vals f hf]
      have hcvt : childVal t f c = childVal s₁ f c := by
        unfold childVal
        rw [hcwt, hcw₁]
      simp only [List.foldl_cons]
      rw [hcvt]
    · intro d hd
      rcases List.mem_cons.mp hd with rfl | hdr
      · exact ⟨cw₁, hcwt, hcp₁⟩
      · exact hkids d hdr

theorem rollupCostsForItem_invAdd (ftr : List String) (hnd : ftr.Nodup) (rank : Nat → Nat) :
    ∀ (fuel : Nat) (s : VsoItems) (i : Nat) (t : VsoItems),
      RankOK rank s.workItemsHierarchy →
      rollupCostsForItem ftr fuel s i = some t → InvAdd ftr s → InvAdd ftr t := by
  intro fuel
  induction fuel with
  | zero =>
    intro s i t _ h _
    exact absurd h (by simp [rollupCostsForItem_zero])
  | succ n ih =>
    intro s i t hrank h hinv
    rw [rollupCostsForItem_succ] at h
    obtain ⟨wi, hwi, hcase⟩ := rollupBody_inv _ ftr s i t h
    rcases hcase with ⟨_, hts⟩ | ⟨hpu, s₁, hbr, hfin⟩
    · subst hts
      exact hinv
    · obtain ⟨w₁, hw₁, hts⟩ := finishItem_inv ftr s₁ i t hfin
      subst hts
      rcases hbr with ⟨hleafi, hs₁⟩ | ⟨cs, hcsi, hpc⟩
      · -- leaf branch: the finished item is not a hierarchy key
        subst hs₁
        have hinv₁ : InvAdd ftr (writeRollup s i (leafRollup ftr wi)) :=
          invAdd_only_unprocessed_changed ftr s _ i
            (writeRollup_hier s i _)
            (fun j hj => itemOf_writeRollup_ne s i j _ hj)
            (fun w hw => by rw [hwi] at hw; cases Option.some_inj.mp hw; exact hpu)
            (fun w hw => by
              rw [itemOf_writeRollup_self s i _ wi hwi] at hw
              cases Option.some_inj.mp hw
              exact hpu)
            hinv
        exact invAdd_nonkey_changed ftr _ _ i
          (setItem_hier _ i _)
          (by rw [writeRollup_hier]; exact hleafi)
          (fun j hj => itemOf_setItem_ne _ i j _ hj)
          (fun w hw => by
            rw [itemOf_writeRollup_self s i _ wi hwi] at hw
            cases Option.some_inj.mp hw
            exact hpu)
          hinv₁
      · -- children branch
        have hinv₀ : InvAdd ftr (writeRollup s i (initRollup ftr wi)) :=
          invAdd_only_unprocessed_changed ftr s _ i
            (writeRollup_hier s i _)
            (fun j hj => itemOf_writeRollup_ne s i j _ hj)
            (fun w hw => by rw [hwi] at hw; cases Option.some_inj.mp hw; exact hpu)
            (fun w hw => by
              rw [itemOf_writeRollup_self s i _ wi hwi] at hw
              cases Option.some_inj.mp hw
              exact hpu)
            hinv
        have hrank₀ : RankOK rank (writeRollup s i (initRollup ftr wi)).workItemsHierarchy := by
          rw [writeRollup_hier]
          exact hrank
        obtain ⟨p₁, hp₁, hp₁f, hp₁u, hp₁vals, hkids, hinv₁⟩ :=
          processChildren_fold ftr hnd rank n i
            (fun s₂ c t₂ hr hc hv => ih s₂ c t₂ hr hc hv)
            cs _ s₁ _ (fun _ => (some 0 : JsNum)) hrank₀
            (fun c hc => hrank.edge hcsi hc)
            (itemOf_writeRollup_self s i _ wi hwi) hpu
            (fun f hf => initRollup_lookup ftr wi f hf) hinv₀ hpc
        rw [hp₁] at hw₁
        cases Option.some_inj.mp hw₁
        have hier₁ : s₁.workItemsHierarchy = s.workItemsHierarchy := by
          rw [(processChildren_coreRelEx _ ftr i
            (fun s₃ d t₃ hd => (rollupCostsForItem_coreRel ftr n s₃ d t₃ hd).toEx i)
            cs _ s₁ hpc).hier, writeRollup_hier]
        intro j w cs₂ hjw hproc hcs₂
        rw [setItem_hier, hier₁] at hcs₂
        by_cases hji : j = i
        · subst hji
          rw [itemOf_setItem_self] at hjw
          cases Option.some_inj.mp hjw
          rw [hcsi] at hcs₂
          cases Option.some_inj.mp hcs₂
          have hkid_ne : ∀ c ∈ cs, c ≠ j := by
            intro c hc e
            exact absurd (hrank.edge hcsi hc) (by rw [e]; exact lt_irrefl _)
          constructor
          · intro c hc
            obtain ⟨cw, hcw, hcp⟩ := hkids c hc
            exact ⟨cw, by rw [itemOf_setItem_ne s₁ j c _ (hkid_ne c hc)]; exact hcw, hcp⟩
          · intro f hf
            rw [finishedItem_rollupInfo, hp₁vals f hf]
            congr 1
            exact (childFold_congr cs (fun c hc =>
              childVal_eq_of_itemOf_eq (itemOf_setItem_ne s₁ j c _ (hkid_ne c hc)) f)).symm
        · rw [itemOf_setItem_ne s₁ i j _ hji] at hjw
          have hcs₂' : lookupKey j s₁.workItemsHierarchy = some cs₂ := by
            rw [hier₁]
            exact hcs₂
          obtain ⟨hkidsj, hvalsj⟩ := hinv₁ j w cs₂ hjw hproc hcs₂'
          have hkid_ne : ∀ c ∈ cs₂, c ≠ i := by
            intro c hc e
            subst e
            obtain ⟨cw, hcw, hcp⟩ := hkidsj c hc
            rw [hp₁] at hcw
            cases Option.some_inj.mp hcw
            rw [hp₁u] at hcp
            exact absurd hcp (by simp)
          constructor
          · intro c hc
            obtain ⟨cw, hcw, hcp⟩ := hkidsj c hc
            exact ⟨cw, by rw [itemOf_setItem_ne s₁ i c _ (hkid_ne c hc)]; exact hcw, hcp⟩
          · intro f hf
            rw [hvalsj f hf]
            congr 1
            exact (childFold_congr cs₂ (fun c hc =>
              childVal_eq_of_itemOf_eq (itemOf_setItem_ne s₁ i c _ (hkid_ne c hc)) f)).symm

theorem rollupCostsGo_invAdd (ftr : List String) (hnd : ftr.Nodup) (rank : Nat → Nat)
    (fuel : Nat) :
    ∀ (keys : List (Nat × List Nat)) (s t : VsoItems),
      RankOK rank s.workItemsHierarchy →
      rollupCostsGo ftr fuel s keys = some t → InvAdd ftr s → InvAdd ftr t := by
  intro keys
  induction keys with
  | nil =>
    intro s t _ h hinv
    cases Option.some_inj.mp h
    exact hinv
  | cons q rest ih =>
    intro s t hrank h hinv
    obtain ⟨s₁, h₁, h₂⟩ := rollupCostsGo_cons_inv ftr fuel s q rest t h
    have hier₁ : s₁.workItemsHierarchy = s.workItemsHierarchy :=
      (rollupCostsForItem_coreRel ftr fuel s q.1 s₁ h₁).hier
    exact ih s₁ t (by rw [hier₁]; exact hrank) h₂
      (rollupCostsForItem_invAdd ftr hnd rank fuel s q.1 s₁ hrank h₁ hinv)

theorem fresh_invAdd (ftr : List String) (s : VsoItems) (h : Fresh s) : InvAdd ftr s := by
  intro i w cs hiw hproc _
  have := h (i, w) (lookupKey_mem s.workItemsWithFields i w hiw)
  rw [show w.state = initState from this] at hproc
  exact absurd hproc (by simp [initState])

/-- Claim C2 (amended): after a successful traversal from a fresh state over
an acyclic hierarchy (witnessed by a rank function) with a duplicate-free
rollup-field list, every non-leaf item is processed and its computed value
for each rollup field is the left fold of its direct children's final
values where `round2` is applied after each addition — not a single
`round2` of the plain sum, which differs when children carry sub-cent
values (see the counterexample). -/
theorem rollup_additivity (ftr : List String) (rank : Nat → Nat) (fuel : Nat)
    (s t : VsoItems) (i : Nat) (cs : List Nat) (w : WorkItem)
    (hnd : ftr.Nodup) (hrank : RankOK rank s.workItemsHierarchy) (hfresh : Fresh s)
    (hrun : rollupCosts ftr fuel s = some t)
    (hcs : lookupKey i t.workItemsHierarchy = some cs)
    (hw : itemOf t i = some w) :
    w.state.isProcessed = true ∧
    ∀ f ∈ ftr, lookupKey f w.state.rollupInfo = some (childFold t f cs) := by
  have hier : t.workItemsHierarchy = s.workItemsHierarchy :=
    (rollupCosts_coreRel ftr fuel s t hrun).hier
  have hcs₀ : lookupKey i s.workItemsHierarchy = some cs := by
    rw [← hier]
    exact hcs
  obtain ⟨w₁, hw₁, hproc₁⟩ := rollupCosts_processed ftr fuel s t hrun i cs hcs₀
  rw [hw] at hw₁
  cases Option.some_inj.mp hw₁
  have hinvt : InvAdd ftr t :=
    rollupCostsGo_invAdd ftr hnd rank fuel s.workItemsHierarchy s t hrank hrun
      (fresh_invAdd ftr s hfresh)
  exact ⟨hproc₁, (hinvt i w cs hw hproc₁ hcs).2⟩

/-- A fresh store whose two leaves carry the sub-cent value 0.125. -/
def sRoundCex : VsoItems :=
  { workItemsHierarchy := [(1, [2, 3])],
    workItemsWithFields :=
      [(1, blankItem),
       (2, { fields := [("a", 1/8)], state := initState }),
       (3, { fields := [("a", 1/8)], state := initState })] }

/-- The result of the traversal on `sRoundCex`. -/
def tRoundCex : VsoItems := (rollupCosts ["a"] 2 sRoundCex).getD sRoundCex

unseal Rat.add Rat.mul Rat.inv in
/-- Claim C2, as stated, is false: with children values 0.125 and 0.125 the
code rounds after each addition (0.125 → 0.13, 0.13 + 0.125 → 0.26), while
the claimed `round2(Σ children.rollupInfo)` is `round2(0.25) = 0.25`. -/
theorem rollup_additivity_cex :
    rollupCosts ["a"] 2 sRoundCex = some tRoundCex ∧
    (itemOf tRoundCex 1).map (fun w => lookupKey "a" w.state.rollupInfo)
      = some (some (some (13/50))) ∧
    round2N (childSumSpec tRoundCex "a" [2, 3]) = some (1/4) ∧
    ((some (some (13/50)) : Option JsNum) ≠ some (some (1/4))) := by
  refine ⟨by decide, by decide, by decide, by decide⟩

/-- Item 1 after the traversal on `sExV`. -/
def wEx1 : WorkItem := (itemOf tExV 1).getD blankItem

unseal Rat.add Rat.mul Rat.inv in
theorem rollup_additivity_witness :
    wEx1.state.isProcessed = true ∧
    ∀ f ∈ ["a"], lookupKey f wEx1.state.rollupInfo = some (childFold tExV f [2, 3]) :=
  rollup_additivity ["a"] (fun n => if n = 1 then 1 else 0) 3 sExV tExV 1 [2, 3] wEx1
    (by decide) (by decide) (by decide) (by decide) (by decide) (by decide)

/-! ### Rounding rule (claim C3) -/

/-- Modelled from the spec: round half away from zero to an integer:
negative halves go down, nonnegative values round half up. -/
def rhafzRound (y : ℚ) : ℤ := if y < 0 then -⌊-y + 1/2⌋ else ⌊y + 1/2⌋

/-- Modelled from the spec: round to 2 decimal places, half away from zero
on the cents digit. -/
def rhafz2 (x : ℚ) : ℚ := (rhafzRound (x * 100) : ℚ) / 100

theorem floor_half_reflect_iff (y : ℚ) :
    ⌊y + 1/2⌋ = -⌊-y + 1/2⌋ ↔ Int.fract y ≠ 1/2 := by
  have hy : y = (⌊y⌋ : ℚ) + Int.fract y := by
    rw [Int.floor_add_fract]
  have ht0 : 0 ≤ Int.fract y := Int.fract_nonneg y
  have ht1 : Int.fract y < 1 := Int.fract_lt_one y
  have hL : ⌊y + 1/2⌋ = ⌊y⌋ + ⌊Int.fract y + 1/2⌋ := by
    have he : y + 1/2 = ((⌊y⌋ : ℤ) : ℚ) + (Int.fract y + 1/2) := by
      push_cast
      linarith
    rw [he, Int.floor_int_add]
  have hR : ⌊-y + 1/2⌋ = -⌊y⌋ + ⌊1/2 - Int.fract y⌋ := by
    have he : -y + 1/2 = ((-⌊y⌋ : ℤ) : ℚ) + (1/2 - Int.fract y) := by
      push_cast
      linarith
    rw [he, Int.floor_int_add]
  rcases lt_trichotomy (Int.fract y) (1/2) with h | h | h
  · have h1 : ⌊Int.fract y + 1/2⌋ = 0 := by
      rw [Int.floor_eq_iff]
      push_cast
      constructor <;> linarith
    have h2 : ⌊1/2 - Int.fract y⌋ = 0 := by
      rw [Int.floor_eq_iff]
      push_cast
      constructor <;> linarith
    rw [hL, hR, h1, h2]
    constructor
    · intro _ he
      rw [he] at h
      norm_num at h
    · intro _
      omega
  · have h1 : ⌊Int.fract y + 1/2⌋ = 1 := by
      rw [h, Int.floor_eq_iff]
      push_cast
      norm_num
    have h2 : ⌊1/2 - Int.fract y⌋ = 0 := by
      rw [h, Int.floor_eq_iff]
      push_cast
      norm_num
    rw [hL, hR, h1, h2]
    constructor
    · intro he
      omega
    · intro he
      exact absurd h he
  · have h1 : ⌊Int.fract y + 1/2⌋ = 1 := by
      rw [Int.floor_eq_iff]
      push_cast
      constructor <;> linarith
    have h2 : ⌊1/2 - Int.fract y⌋ = -1 := by
      rw [Int.floor_eq_iff]
      push_cast
      constructor <;> linarith
    rw [hL, hR, h1, h2]
    constructor
    · intro _ he
      rw [he] at h
      norm_num at h
    · intro _
      omega

/-- Claim C3 (amended): the accumulator is rounded to 2 decimal places with
JS `Math.round` on the cents value — halves toward positive infinity.  This
coincides with round-half-away-from-zero exactly when the value is
nonnegative or its cents part is not exactly one half; on a negative exact
half-cent the two rules differ (see the counterexample). -/
theorem round2_half_away_iff (x : ℚ) :
    round2 x = rhafz2 x ↔ (0 ≤ x ∨ Int.fract (x * 100) ≠ 1/2) := by
  have hcast : round2 x = rhafz2 x ↔ jsRound (x * 100) = rhafzRound (x * 100) := by
    unfold round2 rhafz2
    constructor
    · intro h
      have h2 : ((jsRound (x * 100) : ℚ)) = ((rhafzRound (x * 100) : ℚ)) := by
        field_simp at h
        exact_mod_cast h
      exact_mod_cast h2
    · intro h
      rw [h]
  rw [hcast]
  unfold jsRound rhafzRound
  by_cases hy : x * 100 < 0
  · have hx : ¬ (0 ≤ x) := by
      intro h0
      nlinarith
    rw [if_pos hy]
    simp only [hx, false_or]
    exact floor_half_reflect_iff (x * 100)
  · have hx : 0 ≤ x := by nlinarith [not_lt.mp hy]
    rw [if_neg hy]
    simp [hx]

theorem round2_half_away_iff_witness : round2 (1/8) = rhafz2 (1/8) :=
  (round2_half_away_iff (1/8)).mpr (Or.inl (by norm_num))

/-- A fresh store with one leaf carrying the negative half-cent -0.125. -/
def sNegCex : VsoItems :=
  { workItemsHierarchy := [(1, [2])],
    workItemsWithFields :=
      [(1, blankItem),
       (2, { fields := [("a", -1/8)], state := initState })] }

/-- The result of the traversal on `sNegCex`. -/
def tNegCex : VsoItems := (rollupCosts ["a"] 2 sNegCex).getD sNegCex

unseal Rat.add Rat.mul Rat.inv in
/-- Claim C3, as stated, is false: adding the child value -0.125 into the
fresh accumulator, the code stores `Math.round(-12.5)/100 = -0.12`, while
rounding half away from zero on the cents digit would give -0.13. -/
theorem round2_half_away_cex :
    rollupCosts ["a"] 2 sNegCex = some tNegCex ∧
    (itemOf tNegCex 1).map (fun w => lookupKey "a" w.state.rollupInfo)
      = some (some (some (-3/25))) ∧
    rhafz2 (0 + (-1/8)) = -13/100 ∧
    ((-3/25 : ℚ) ≠ -13/100) := by
  refine ⟨by decide, by decide, by decide, by decide⟩

/-! ### Missing child snapshot (claim C9)

When a child id appears in the hierarchy but has no snapshot entry, line 263
dereferences `undefined` and throws; the run can never complete.  The proof
keeps the bad configuration as an invariant: the child has no entry, and the
parent (which must eventually be processed, being a hierarchy key) is never
processed, because processing it would require the child call to succeed. -/

/-- The bad configuration: `p` has `c` among its children, `c` has no
snapshot, and `p` is absent or not yet processed. -/
structure MissingChild (p c : Nat) (cs : List Nat) (s : VsoItems) : Prop where
  missing : itemOf s c = none
  parentUnproc : ∀ w, itemOf s p = some w → w.state.isProcessed = false
  parentKey : lookupKey p s.workItemsHierarchy = some cs
  childMem : c ∈ cs

theorem rollupCostsForItem_missing (ftr : List String) (fuel : Nat) (s : VsoItems)
    (x : Nat) (h : itemOf s x = none) : rollupCostsForItem ftr fuel s x = none := by
  cases fuel with
  | zero => rfl
  | succ n =>
    rw [rollupCostsForItem_succ]
    unfold rollupBody
    rw [h]

/-- `addChild` keeps every entry's processed flag. -/
theorem addChild_flag (i c : Nat) (ftr : List String) :
    ∀ (s t : VsoItems), addChild i c ftr s = some t →
      ∀ j w₁, itemOf t j = some w₁ →
        ∃ w, itemOf s j = some w ∧ w₁.state.isProcessed = w.state.isProcessed := by
  induction ftr with
  | nil =>
    intro s t h j w₁ hw₁
    cases Option.some_inj.mp h
    exact ⟨w₁, hw₁, Eq.refl _⟩
  | cons f rest ih =>
    intro s t h j w₁ hw₁
    obtain ⟨s₁, h₁, h₂⟩ := addChild_cons_inv i c f rest s t h
    obtain ⟨p, cw, hp, hc, hs₁⟩ := applyChildField_inv s i c f s₁ h₁
    obtain ⟨w₂, hw₂, hflag⟩ := ih s₁ t h₂ j w₁ hw₁
    subst hs₁
    by_cases hji : j = i
    · subst hji
      rw [itemOf_writeRollup_self s j _ p hp] at hw₂
      cases Option.some_inj.mp hw₂
      exact ⟨p, hp, hflag⟩
    · rw [itemOf_writeRollup_ne s i j _ hji] at hw₂
      exact ⟨w₂, hw₂, hflag⟩

theorem addChild_missingChild {p c : Nat} {cs : List Nat} (i d : Nat) (ftr : List String)
    {s t : VsoItems} (h : addChild i d ftr s = some t)
    (hbad : MissingChild p c cs s) : MissingChild p c cs t := by
  have hrel := addChild_coreRelEx i d ftr s t h
  refine ⟨?_, ?_, ?_, hbad.childMem⟩
  · have := hrel.domain c
    rw [hbad.missing] at this
    simp only [Option.isSome_none] at this
    exact Option.not_isSome_iff_eq_none.mp (by rw [this]; simp)
  · intro w hw
    obtain ⟨w₀, hw₀, hflag⟩ := addChild_flag i d ftr s t h p w hw
    rw [hflag]
    exact hbad.parentUnproc w₀ hw₀
  · rw [hrel.hier]
    exact hbad.parentKey

theorem writeRollup_missingChild {p c : Nat} {cs : List Nat} (s : VsoItems) (i₀ : Nat)
    (ri : List (String × JsNum)) (w₀ : WorkItem) (hw : itemOf s i₀ = some w₀)
    (hbad : MissingChild p c cs s) : MissingChild p c cs (writeRollup s i₀ ri) := by
  refine ⟨?_, ?_, ?_, hbad.childMem⟩
  · have := (writeRollup_coreRelEx s i₀ ri w₀ hw).domain c
    rw [hbad.missing] at this
    simp only [Option.isSome_none] at this
    exact Option.not_isSome_iff_eq_none.mp (by rw [this]; simp)
  · intro w hwp
    by_cases hpi : p = i₀
    · subst hpi
      rw [itemOf_writeRollup_self s p ri w₀ hw] at hwp
      cases Option.some_inj.mp hwp
      exact hbad.parentUnproc w₀ hw
    · rw [itemOf_writeRollup_ne s i₀ p ri hpi] at hwp
      exact hbad.parentUnproc w hwp
  · rw [writeRollup_hier]
    exact hbad.parentKey

theorem missingChild_fails (ftr : List String) (p c : Nat) (cs : List Nat) :
    ∀ fuel : Nat,
      (∀ s, MissingChild p c cs s → rollupCostsForItem ftr fuel s p = none) ∧
      (∀ s j t, MissingChild p c cs s → rollupCostsForItem ftr fuel s j = some t →
        MissingChild p c cs t) := by
  intro fuel
  induction fuel with
  | zero =>
    exact ⟨fun s _ => rfl,
      fun s j t _ h => absurd h (by simp [rollupCostsForItem_zero])⟩
  | succ n ih =>
    obtain ⟨ihA, ihB⟩ := ih
    -- a successful children walk (of any parent) preserves the bad configuration
    have hwalkB : ∀ (suf : List Nat) (i₀ : Nat) (s₀ t₀ : VsoItems),
        MissingChild p c cs s₀ →
        processChildren (rollupCostsForItem ftr n) ftr i₀ s₀ suf = some t₀ →
        MissingChild p c cs t₀ := by
      intro suf i₀
      induction suf with
      | nil =>
        intro s₀ t₀ hbad h
        cases Option.some_inj.mp h
        exact hbad
      | cons d rest ihw =>
        intro s₀ t₀ hbad h
        obtain ⟨s₁, s₂, h₁, h₂, h₃⟩ := processChildren_cons_inv _ ftr i₀ s₀ d rest t₀ h
        exact ihw s₂ t₀ (addChild_missingChild i₀ d ftr h₂ (ihB s₀ d s₁ hbad h₁)) h₃
    -- a children walk of `p` that still has `c` ahead fails
    have hwalk : ∀ (suf : List Nat) (s₀ : VsoItems), MissingChild p c cs s₀ → c ∈ suf →
        processChildren (rollupCostsForItem ftr n) ftr p s₀ suf = none := by
      intro suf
      induction suf with
      | nil =>
        intro s₀ _ hc
        simp at hc
      | cons d rest ihw =>
        intro s₀ hbad hc
        by_cases hdc : d = c
        · subst hdc
          unfold processChildren
          rw [rollupCostsForItem_missing ftr n s₀ d hbad.missing]
        · have hc₁ : c ∈ rest := by
            rcases List.mem_cons.mp hc with e | e
            · exact absurd e.symm hdc
            · exact e
          unfold processChildren
          cases hstep : rollupCostsForItem ftr n s₀ d with
          | none => rfl
          | some s₁ =>
            have hbad₁ := ihB s₀ d s₁ hbad hstep
            show (match addChild p d ftr s₁ with
              | some s₂ => processChildren (rollupCostsForItem ftr n) ftr p s₂ rest
              | none => none) = none
            cases hadd : addChild p d ftr s₁ with
            | none => rfl
            | some s₂ =>
              exact ihw s₂ (addChild_missingChild p d ftr hadd hbad₁) hc₁
    have hA : ∀ s, MissingChild p c cs s → rollupCostsForItem ftr (n + 1) s p = none := by
      intro s hbad
      cases hres : rollupCostsForItem ftr (n + 1) s p with
      | none => rfl
      | some t =>
        exfalso
        rw [rollupCostsForItem_succ] at hres
        obtain ⟨wi, hwi, hcase⟩ := rollupBody_inv _ ftr s p t hres
        rcases hcase with ⟨hp, _⟩ | ⟨hpu, s₁, hbr, hfin⟩
        · rw [hbad.parentUnproc wi hwi] at hp
          exact absurd hp (by simp)
        · rcases hbr with ⟨hnone, _⟩ | ⟨cs₁, hcs₁, hpc⟩
          · rw [hbad.parentKey] at hnone
            exact absurd hnone (by simp)
          · rw [hbad.parentKey] at hcs₁
            cases Option.some_inj.mp hcs₁
            have hbad₀ : MissingChild p c cs (writeRollup s p (initRollup ftr wi)) :=
              writeRollup_missingChild s p _ wi hwi hbad
            rw [hwalk cs _ hbad₀ hbad.childMem] at hpc
            exact absurd hpc (by simp)
    refine ⟨hA, ?_⟩
    intro s j t hbad h
    by_cases hjp : j = p
    · subst hjp
      rw [hA s hbad] at h
      exact absurd h (by simp)
    · rw [rollupCostsForItem_succ] at h
      obtain ⟨wi, hwi, hcase⟩ := rollupBody_inv _ ftr s j t h
      rcases hcase with ⟨_, hts⟩ | ⟨hpu, s₁, hbr, hfin⟩
      · subst hts
        exact hbad
      · obtain ⟨w₁, hw₁m, hts⟩ := finishItem_inv ftr s₁ j t hfin
        subst hts
        have hbad₁ : MissingChild p c cs s₁ := by
          rcases hbr with ⟨_, hs₁⟩ | ⟨cs₂, hcs₂, hpc⟩
          · subst hs₁
            exact writeRollup_missingChild s j _ wi hwi hbad
          · exact hwalkB cs₂ j _ s₁
              (writeRollup_missingChild s j _ wi hwi hbad) hpc
        refine ⟨?_, ?_, ?_, hbad.childMem⟩
        · have := (finishItem_coreRelEx ftr s₁ j _ hfin).domain c
          rw [hbad₁.missing] at this
          simp only [Option.isSome_none] at this
          exact Option.not_isSome_iff_eq_none.mp (by rw [this]; simp)
        · intro w hwp
          rw [finishItem_unmodified ftr s₁ j _ hfin p (fun e => hjp e.symm)] at hwp
          exact hbad₁.parentUnproc w hwp
        · rw [(finishItem_coreRelEx ftr s₁ j _ hfin).hier]
          exact hbad₁.parentKey

theorem rollupCostsGo_missing (ftr : List String) (fuel : Nat) (p c : Nat) (cs : List Nat) :
    ∀ (keys : List (Nat × List Nat)) (s : VsoItems), MissingChild p c cs s →
      p ∈ keys.map Prod.fst → rollupCostsGo ftr fuel s keys = none := by
  intro keys
  induction keys with
  | nil =>
    intro s _ hmem
    simp at hmem
  | cons q rest ih =>
    intro s hbad hmem
    by_cases hqp : q.1 = p
    · obtain ⟨i₀, cs₀⟩ := q
      simp only at hqp
      subst hqp
      unfold rollupCostsGo
      rw [(missingChild_fails ftr i₀ c cs fuel).1 s hbad]
    · obtain ⟨i₀, cs₀⟩ := q
      simp only at hqp
      have hmem₁ : p ∈ rest.map Prod.fst := by
        rcases List.mem_cons.mp hmem with e | e
        · exact absurd e.symm hqp
        · exact e
      unfold rollupCostsGo
      cases hstep : rollupCostsForItem ftr fuel s i₀ with
      | none => rfl
      | some s₁ =>
        exact ih s₁ ((missingChild_fails ftr p c cs fuel).2 s i₀ s₁ hbad hstep) hmem₁

/-- Claim C9: if a child id appears in the hierarchy index but has no entry
in the field-snapshot store, the rollup aggregation can never complete: for
every fuel the run returns `none` (the JS dereference of the missing item
throws and aborts the run) instead of producing a total for the parent. -/
theorem missing_child_aborts (ftr : List String) (fuel : Nat) (s : VsoItems)
    (p c : Nat) (cs : List Nat)
    (hfresh : Fresh s)
    (hp : lookupKey p s.workItemsHierarchy = some cs) (hc : c ∈ cs)
    (hmiss : itemOf s c = none) :
    rollupCosts ftr fuel s = none := by
  have hbad : MissingChild p c cs s := by
    refine ⟨hmiss, ?_, hp, hc⟩
    intro w hw
    have := hfresh (p, w) (lookupKey_mem s.workItemsWithFields p w hw)
    rw [show w.state = initState from this]
    rfl
  have hmem : p ∈ s.workItemsHierarchy.map Prod.fst := by
    have := lookupKey_mem s.workItemsHierarchy p cs hp
    exact List.mem_map.mpr ⟨(p, cs), this, rfl⟩
  exact rollupCostsGo_missing ftr fuel p c cs s.workItemsHierarchy s hbad hmem

/-- A store whose hierarchy references child 2, which has no snapshot. -/
def sMissW : VsoItems :=
  { workItemsHierarchy := [(1, [2])],
    workItemsWithFields := [(1, blankItem)] }

theorem missing_child_aborts_witness : rollupCosts ["a"] 5 sMissW = none :=
  missing_child_aborts ["a"] 5 sMissW 1 2 [2] (by decide) (by decide) (by decide)
    (by decide)

end VsoRollup
